import Mathlib

/-!
Verification of the translation pipeline in `translation/translate.py`.

The Python source is shallowly embedded: strings are `List Char`, the
tag regular expression `{.*?}` is embedded as an explicit left-to-right
scanner (`findMatch`), `str.replace(old, new, 1)` as `replaceFirst`,
dictionaries as association lists, and the `TranslatorService` state as
an explicit record threaded through the functions.  The external
translation provider is an oracle `Nat → Nat → Option (List Char)`
giving, for each translate call (indexed by a ghost call counter) and
each retry attempt, either a successful result or a failure.
-/

/-- Decimal digit character, as produced by Python string formatting. -/
def digitChar (d : Nat) : Char := Char.ofNat (48 + d)

/-- Fuel-driven decimal digit expansion (most significant digit first). -/
def natDigitsAux : Nat → Nat → List Char
  | 0, _ => []
  | fuel + 1, n =>
    if n < 10 then [digitChar n]
    else natDigitsAux fuel (n / 10) ++ [digitChar (n % 10)]

/-- Decimal representation of a natural number, as Python `f"{n}"` prints it. -/
def natDigits (n : Nat) : List Char := natDigitsAux (n + 1) n

/-- The positional placeholder `(%i%)` that `links2tags` substitutes for the
i-th extracted tag (Python `f"(%{count}%)"`). -/
def marker (i : Nat) : List Char :=
  '(' :: '%' :: natDigits i ++ ['%', ')']

/-- Scan for the lazy tail of a tag match: given the characters following a
`{`, find the shortest prefix of non-newline characters ending at a `}`.
Returns the interior and the remainder after the closing brace.  This is the
behaviour of `.*?}` in the pattern `{.*?}` (`.` does not match a newline). -/
def tagTail : List Char → Option (List Char × List Char)
  | [] => none
  | c :: cs =>
    if c = '}' then some ([], cs)
    else if c = '\n' then none
    else (tagTail cs).map (fun pr => (c :: pr.1, pr.2))

/-- Leftmost match of the tag pattern `{.*?}`: returns the text before the
match, the matched substring, and the rest after it. -/
def findMatch : List Char → Option (List Char × List Char × List Char)
  | [] => none
  | c :: cs =>
    if c = '{' then
      match tagTail cs with
      | some (w, r) => some ([], '{' :: (w ++ ['}']), r)
      | none => (findMatch cs).map (fun pr => (c :: pr.1, pr.2.1, pr.2.2))
    else (findMatch cs).map (fun pr => (c :: pr.1, pr.2.1, pr.2.2))

/-- All non-overlapping matches of the tag pattern, scanning left to right,
with the gaps between them: `re.finditer(TAG_REGEX, text)`.  Fuel-driven so
that the definition reduces in the kernel; `allMatches` instantiates the fuel.
Returns the list of (gap, match) pairs and the trailing gap. -/
def allMatchesF : Nat → List Char → List (List Char × List Char) × List Char
  | 0, s => ([], s)
  | fuel + 1, s =>
    match findMatch s with
    | none => ([], s)
    | some (p, t, r) =>
      let pr := allMatchesF fuel r
      ((p, t) :: pr.1, pr.2)

/-- All matches of the tag pattern in `s`, with their surrounding gaps. -/
def allMatches (s : List Char) : List (List Char × List Char) × List Char :=
  allMatchesF (s.length + 1) s

/-- Remove every match of the tag pattern: `re.sub(TAG_REGEX, "", text)`. -/
def removeTagsF : Nat → List Char → List Char
  | 0, s => s
  | fuel + 1, s =>
    match findMatch s with
    | none => s
    | some (p, _, r) => p ++ removeTagsF fuel r

/-- `re.sub(TAG_REGEX, "", text)` with the fuel instantiated. -/
def removeTags (s : List Char) : List Char := removeTagsF (s.length + 1) s

/-- Python `s.replace(old, new, 1)`: replace the leftmost occurrence of
`old` in `s` by `new` (if any). -/
def replaceFirst : List Char → List Char → List Char → List Char
  | [], old, new => if old.isPrefixOf [] then new else []
  | c :: cs, old, new =>
    if old.isPrefixOf (c :: cs) then new ++ (c :: cs).drop old.length
    else c :: replaceFirst cs old new

/-- The loop body of `TranslatorService.links2tags`: successively replace the
first occurrence of each matched tag by its positional marker, numbering the
markers from `i`. -/
def extractFold : List Char → List (List Char) → Nat → List Char
  | text, [], _ => text
  | text, t :: ts, i => extractFold (replaceFirst text t (marker i)) ts (i + 1)

/-- `TranslatorService.links2tags`: extract all tags, returning the text with
markers substituted and the list of tags in match order. -/
def links2tags (text : List Char) : List Char × List (List Char) :=
  let ms := (allMatches text).1.map Prod.snd
  (extractFold text ms 0, ms)

/-- The loop of `TranslatorService.tags2links`: for each index in order,
replace the first occurrence of marker `i` by the i-th tag. -/
def restoreFold : List Char → List (List Char) → Nat → List Char
  | text, [], _ => text
  | text, t :: ts, i => restoreFold (replaceFirst text (marker i) t) ts (i + 1)

/-- `TranslatorService.tags2links`: substitute the stored tags back for their
positional markers. -/
def tags2links (text : List Char) (links : List (List Char)) : List Char :=
  restoreFold text links 0

/-- Characters removed by `re.sub(r"[\d\s()\[\].,_-]+", "", ...)` in the
short-text check of `TranslatorService.translate`. -/
def isStripChar (c : Char) : Bool :=
  c.isDigit || c = ' ' || c = '\t' || c = '\n' || c = '\r' || c = '\x0b' ||
    c = '\x0c' || c = '(' || c = ')' || c = '[' || c = ']' || c = '.' ||
    c = ',' || c = '_' || c = '-'

/-- Length of the text after removing tags and the stripped character class;
`translate` skips provider work when this is below 5. -/
def meaningfulLen (text : List Char) : Nat :=
  ((removeTags text).filter (fun c => !isStripChar c)).length

/-- Python dict lookup (`dict.get`), first matching key. -/
def dictGet : List (List Char × List Char) → List Char → Option (List Char)
  | [], _ => none
  | (k', v) :: rest, k => if k' = k then some v else dictGet rest k

/-- Python dict assignment `d[k] = v`: updates the existing key in place or
appends a new binding at the end (insertion order). -/
def dictSet : List (List Char × List Char) → List Char → List Char →
    List (List Char × List Char)
  | [], k, v => [(k, v)]
  | (k', v') :: rest, k, v =>
    if k' = k then (k, v) :: rest else (k', v') :: dictSet rest k v

/-- Mutable state of a `TranslatorService` instance. -/
structure TransState where
  cacheData : List (List Char × List Char)
  cacheDirty : Bool
  charCount : Nat
  cachedCharCount : Nat
  deriving Repr, DecidableEq

/-- Exceptions that the embedded code can raise. -/
inductive PyErr where
  | deadline : PyErr
  | typeErr : PyErr
  deriving Repr, DecidableEq

/-- Run configuration and environment oracles.  `provider k a` is the result
of retry attempt `a` of the `k`-th translate call (`none` models an exception
from deep-translator); `elapsedAt k` is `time.time() - startTime` observed by
that call. -/
structure Cfg where
  disableCacheSave : Bool
  maxRuntime : Nat
  elapsedAt : Nat → ℚ
  provider : Nat → Nat → Option (List Char)

/-- MAX_RETRIES from the source. -/
def MAX_RETRIES : Nat := 5

/-- BASE_DELAY from the source (1.0 seconds). -/
def BASE_DELAY : ℚ := 1

/-- The retry loop: try attempts `a, a+1, ...` with the given fuel, returning
the index of the first successful attempt and its result. -/
def retryAux (p : Nat → Option (List Char)) : Nat → Nat → Option (Nat × List Char)
  | 0, _ => none
  | fuel + 1, a =>
    match p a with
    | some r => some (a, r)
    | none => retryAux p fuel (a + 1)

/-- Result of the `for attempt in range(MAX_RETRIES)` loop. -/
def retry (p : Nat → Option (List Char)) : Option (Nat × List Char) :=
  retryAux p MAX_RETRIES 0

/-- Backoff delays slept before attempts `1..m`: `BASE_DELAY * 2^(attempt-1)`
for each attempt after the first. -/
def delaysUpTo (m : Nat) : List ℚ :=
  (List.range m).map (fun i => BASE_DELAY * 2 ^ i)

/-- Observable outcome of one `TranslatorService.translate` call.  `result`
is the returned string (meaningful only when `err = none`), `failures` the
number of provider attempts that raised, `delays` the backoff sleeps
performed, `didLookup` whether the cache was consulted, `hitCache` whether
the call returned a cached value, and `succeeded` whether a provider attempt
returned (the `translated_text in locals()` test). -/
structure TOutcome where
  result : List Char
  err : Option PyErr
  providerCalls : Nat
  failures : Nat
  delays : List ℚ
  didLookup : Bool
  hitCache : Bool
  succeeded : Bool
  deriving Repr, DecidableEq

/-- `TranslatorService.cacheSet`: no-op when cache saving is disabled,
otherwise insert/overwrite and mark dirty. -/
def cacheSet (cfg : Cfg) (st : TransState) (key value : List Char) : TransState :=
  if cfg.disableCacheSave then st
  else { st with cacheData := dictSet st.cacheData key value, cacheDirty := true }

/-- `TranslatorService.translate` for call number `k`: short-text skip, cache
lookup, runtime-limit check, tag extraction, retry loop with exponential
backoff, tag restoration and cache write. -/
def TranslatorService.translate (cfg : Cfg) (k : Nat) (st : TransState)
    (text : List Char) : TransState × TOutcome :=
  if meaningfulLen text < 5 then
    (st, { result := text, err := none, providerCalls := 0, failures := 0,
           delays := [], didLookup := false, hitCache := false, succeeded := false })
  else
    match dictGet st.cacheData text with
    | some v =>
      ({ st with cachedCharCount := st.cachedCharCount + text.length },
       { result := v, err := none, providerCalls := 0, failures := 0,
         delays := [], didLookup := true, hitCache := true, succeeded := false })
    | none =>
      if cfg.maxRuntime ≠ 0 ∧ (cfg.maxRuntime : ℚ) < cfg.elapsedAt k then
        (st, { result := text, err := some .deadline, providerCalls := 0,
               failures := 0, delays := [], didLookup := true, hitCache := false,
               succeeded := false })
      else
        let st1 := { st with charCount := st.charCount + text.length }
        let pr := links2tags text
        match retry (cfg.provider k) with
        | some (a, res) =>
          let restored := tags2links res pr.2
          (cacheSet cfg st1 text restored,
           { result := restored, err := none, providerCalls := a + 1,
             failures := a, delays := delaysUpTo a, didLookup := true,
             hitCache := false, succeeded := true })
        | none =>
          (st1, { result := text, err := none, providerCalls := MAX_RETRIES,
                  failures := MAX_RETRIES, delays := delaysUpTo (MAX_RETRIES - 1),
                  didLookup := true, hitCache := false, succeeded := false })

/-- JSON-like document nodes: strings, other scalars, sequences, mappings.
Non-container scalars other than strings (numbers, booleans, null) all
behave identically in the walker, so a single `num` constructor models
them. -/
inductive J where
  | str : List Char → J
  | num : Int → J
  | list : List J → J
  | obj : List (List Char × J) → J
  deriving Repr

/-- Lookup of a field in a mapping node (`"type" in data`, `data["type"]`). -/
def jLookup : List (List Char × J) → List Char → Option J
  | [], _ => none
  | (k', v) :: rest, k => if k' = k then some v else jLookup rest k

/-- The field names whose string values are translated directly. -/
def entryEffectKeys : List (List Char) := [['e','n','t','r','y'], ['e','f','f','e','c','t']]

/-- The field name `other`. -/
def otherKey : List Char := ['o','t','h','e','r']

/-- The field name `items`. -/
def itemsKey : List Char := ['i','t','e','m','s']

/-- The field name `type`. -/
def typeKey : List Char := ['t','y','p','e']

/-- The literal `list` compared against the `type` field. -/
def listVal : List Char := ['l','i','s','t']

/-- The field names whose sequence values are walked element by element. -/
def listFieldKeys : List (List Char) :=
  [['e','n','t','r','i','e','s'], ['i','t','e','m','s'], ['r','o','w','s'],
   ['h','e','a','d','e','r','E','n','t','r','i','e','s'],
   ['r','e','a','s','o','n','s'], ['o','t','h','e','r'],
   ['l','i','f','e','T','r','i','n','k','e','t']]

/-- Whether the mapping's `type` field is present and equal to `"list"`;
the negation of `("type" not in data or data["type"] != "list")`. -/
def typeIsListAt (fs : List (List Char × J)) : Bool :=
  match jLookup fs typeKey with
  | some (J.str t) => t = listVal
  | _ => false

/-- The inner loop `for elidx, el in enumerate(entry)` of `translate_data`:
translate in place every string sub-element longer than 2 characters.  On an
exception the already performed in-place updates are kept and the remaining
elements are returned untouched. -/
def strPass (cfg : Cfg) : List J → TransState × Nat →
    List J × (TransState × Nat) × Option PyErr
  | [], S => ([], S, none)
  | J.str s :: els, S =>
    if s.length > 2 then
      let p := TranslatorService.translate cfg S.2 S.1 s
      match p.2.err with
      | some e => (J.str s :: els, (p.1, S.2 + 1), some e)
      | none =>
        let pr := strPass cfg els (p.1, S.2 + 1)
        (J.str p.2.result :: pr.1, pr.2.1, pr.2.2)
    else
      let pr := strPass cfg els S
      (J.str s :: pr.1, pr.2.1, pr.2.2)
  | el :: els, S =>
    let pr := strPass cfg els S
    (el :: pr.1, pr.2.1, pr.2.2)

/-- The loop `for idx, item in enumerate(items)` in the `other`-mapping
branch: each item is passed to `translator.translate`, which raises a
`TypeError` inside `re.sub` when the item is not a string. -/
def otherItems (cfg : Cfg) : List J → TransState × Nat →
    List J × (TransState × Nat) × Option PyErr
  | [], S => ([], S, none)
  | J.str s :: items, S =>
    let p := TranslatorService.translate cfg S.2 S.1 s
    match p.2.err with
    | some e => (J.str s :: items, (p.1, S.2 + 1), some e)
    | none =>
      let pr := otherItems cfg items (p.1, S.2 + 1)
      (J.str p.2.result :: pr.1, pr.2.1, pr.2.2)
  | item :: items, S => (item :: items, S, some .typeErr)

/-- The loop `for section, items in v.items()` of the `other`-mapping branch.
A section value that is not a sequence is modelled as raising a `TypeError`
(no claim exercises that corner). -/
def otherSections (cfg : Cfg) : List (List Char × J) → TransState × Nat →
    List (List Char × J) × (TransState × Nat) × Option PyErr
  | [], S => ([], S, none)
  | (sec, J.list items) :: rest, S =>
    let pr := otherItems cfg items S
    match pr.2.2 with
    | some e => ((sec, J.list pr.1) :: rest, pr.2.1, some e)
    | none =>
      let pr2 := otherSections cfg rest pr.2.1
      ((sec, J.list pr.1) :: pr2.1, pr2.2.1, pr2.2.2)
  | (sec, v) :: rest, S => ((sec, v) :: rest, S, some .typeErr)

mutual

/-- `translate_data`: recursive walker over a document node, threading the
translator state and the ghost call counter; returns the (possibly
partially) rewritten node together with the first exception raised, if
any.  A list is walked element by element, a mapping field by field; other
nodes are left untouched. -/
def translate_data (cfg : Cfg) : J → TransState × Nat →
    J × (TransState × Nat) × Option PyErr
  | J.list es, S =>
    let pr := translateListAux cfg es S
    (J.list pr.1, pr.2.1, pr.2.2)
  | J.obj fs, S =>
    let pr := translateObjAux cfg [] fs S
    (J.obj pr.1, pr.2.1, pr.2.2)
  | x, S => (x, S, none)

/-- The loop `for element in data` of `translate_data` on a list node. -/
def translateListAux (cfg : Cfg) : List J → TransState × Nat →
    List J × (TransState × Nat) × Option PyErr
  | [], S => ([], S, none)
  | e :: es, S =>
    let pr := translate_data cfg e S
    match pr.2.2 with
    | some err => (pr.1 :: es, pr.2.1, some err)
    | none =>
      let pr2 := translateListAux cfg es pr.2.1
      (pr.1 :: pr2.1, pr2.2.1, pr2.2.2)

/-- The loop `for k, v in data.items()` of `translate_data` on a mapping
node; `done` is the already processed prefix of the field list (Python
mutates the dict in place, so the `type` lookup of the `items` rule sees
the partially rewritten mapping). -/
def translateObjAux (cfg : Cfg) (done : List (List Char × J)) :
    List (List Char × J) → TransState × Nat →
    List (List Char × J) × (TransState × Nat) × Option PyErr
  | [], S => (done, S, none)
  | (k, v) :: rest, S =>
    match v with
    | J.str s =>
      if k ∈ entryEffectKeys then
        let p := TranslatorService.translate cfg S.2 S.1 s
        match p.2.err with
        | some e => (done ++ (k, J.str s) :: rest, (p.1, S.2 + 1), some e)
        | none =>
          translateObjAux cfg (done ++ [(k, J.str p.2.result)]) rest (p.1, S.2 + 1)
      else
        -- generic recursion on a string is a no-op
        translateObjAux cfg (done ++ [(k, J.str s)]) rest S
    | J.obj sections =>
      if k = otherKey then
        let pr := otherSections cfg sections S
        match pr.2.2 with
        | some e => (done ++ (k, J.obj pr.1) :: rest, pr.2.1, some e)
        | none => translateObjAux cfg (done ++ [(k, J.obj pr.1)]) rest pr.2.1
      else
        let pr := translateObjAux cfg [] sections S
        match pr.2.2 with
        | some e => (done ++ (k, J.obj pr.1) :: rest, pr.2.1, some e)
        | none => translateObjAux cfg (done ++ [(k, J.obj pr.1)]) rest pr.2.1
    | J.list vs =>
      if k ∈ listFieldKeys then
        if k = itemsKey ∧ ¬typeIsListAt (done ++ (k, J.list vs) :: rest) then
          -- `continue`: the items field is skipped entirely
          translateObjAux cfg (done ++ [(k, J.list vs)]) rest S
        else
          let pr := entriesLoop cfg vs S
          match pr.2.2 with
          | some e => (done ++ (k, J.list pr.1) :: rest, pr.2.1, some e)
          | none => translateObjAux cfg (done ++ [(k, J.list pr.1)]) rest pr.2.1
      else
        let pr := translateListAux cfg vs S
        match pr.2.2 with
        | some e => (done ++ (k, J.list pr.1) :: rest, pr.2.1, some e)
        | none => translateObjAux cfg (done ++ [(k, J.list pr.1)]) rest pr.2.1
    | J.num n =>
      translateObjAux cfg (done ++ [(k, J.num n)]) rest S

/-- The loop `for idx, entry in enumerate(v)` for the named sequence
fields: a nested list gets the in-place string pass and then the generic
recursion, a string entry is translated, any other entry is recursed
into. -/
def entriesLoop (cfg : Cfg) : List J → TransState × Nat →
    List J × (TransState × Nat) × Option PyErr
  | [], S => ([], S, none)
  | J.list els :: es, S =>
    let pr1 := strPass cfg els S
    match pr1.2.2 with
    | some e => (J.list pr1.1 :: es, pr1.2.1, some e)
    | none =>
      let pr2 := entriesAfter cfg els pr1.1 pr1.2.1
      match pr2.2.2 with
      | some e => (J.list pr2.1 :: es, pr2.2.1, some e)
      | none =>
        let pr3 := entriesLoop cfg es pr2.2.1
        (J.list pr2.1 :: pr3.1, pr3.2.1, pr3.2.2)
  | J.str s :: es, S =>
    let p := TranslatorService.translate cfg S.2 S.1 s
    match p.2.err with
    | some e => (J.str s :: es, (p.1, S.2 + 1), some e)
    | none =>
      let pr := entriesLoop cfg es (p.1, S.2 + 1)
      (J.str p.2.result :: pr.1, pr.2.1, pr.2.2)
  | x :: es, S =>
    let pr0 := translate_data cfg x S
    match pr0.2.2 with
    | some e => (pr0.1 :: es, pr0.2.1, some e)
    | none =>
      let pr := entriesLoop cfg es pr0.2.1
      (pr0.1 :: pr.1, pr.2.1, pr.2.2)

/-- The `translate_data(translator, entry)` call that follows the in-place
string pass on a nested list: the generic recursion runs over the mutated
list, but `strPass` leaves every non-string element unchanged and the
generic walker is the identity on strings, so the recursion is performed on
the original sub-element whenever the mutated one could differ. -/
def entriesAfter (cfg : Cfg) : List J → List J → TransState × Nat →
    List J × (TransState × Nat) × Option PyErr
  | [], ms, S => (ms, S, none)
  | _ :: _, [], S => ([], S, none)
  | J.str _ :: os, m :: ms, S =>
    let pr := entriesAfter cfg os ms S
    (m :: pr.1, pr.2.1, pr.2.2)
  | o :: os, _ :: ms, S =>
    let pr0 := translate_data cfg o S
    match pr0.2.2 with
    | some e => (pr0.1 :: ms, pr0.2.1, some e)
    | none =>
      let pr := entriesAfter cfg os ms pr0.2.1
      (pr0.1 :: pr.1, pr.2.1, pr.2.2)

end

/-- Durable-storage operations performed by `cacheSync`: dumping the full
mapping to the `.swp` temporary file and renaming it over the cache file. -/
inductive FsOp where
  | writeTemp : List (List Char × List Char) → FsOp
  | renameTempToReal : FsOp
  deriving Repr, DecidableEq

/-- `TranslatorService.cacheSync`: when dirty, write the whole mapping to a
temporary file, atomically rename it into place and clear the dirty flag;
`fsOk` is the file-system oracle — when false the attempt raises and the
handler only reports the error (third component) without re-raising. -/
def cacheSync (fsOk : Bool) (st : TransState) : TransState × List FsOp × Bool :=
  if st.cacheDirty then
    if fsOk then
      ({ st with cacheDirty := false },
       [.writeTemp st.cacheData, .renameTempToReal], false)
    else (st, [], true)
  else (st, [], false)

/-- `TranslatorService.__exit__`: sync the cache unless cache saving is
disabled. -/
def serviceExit (cfg : Cfg) (fsOk : Bool) (st : TransState) :
    TransState × List FsOp × Bool :=
  if cfg.disableCacheSave then (st, [], false) else cacheSync fsOk st

/-- Result of `translate_file` on one document: the rewritten document, the
final translator state, the next ghost call index, the exception caught by
the per-file handler (if any), the storage operations of the closing cache
sync and whether a cache-save error was reported. -/
structure FileResult where
  out : J
  st : TransState
  nextK : Nat
  caught : Option PyErr
  fsOps : List FsOp
  reportedSaveErr : Bool

/-- `translate_file`: open a translator scope over the document's cache,
walk the document (any exception — including the deadline — is caught by
the `except Exception` handler and only logged), then leave the scope,
which syncs the cache. -/
def translate_file (cfg : Cfg) (fsOk : Bool)
    (cache0 : List (List Char × List Char)) (doc : J) (k : Nat) : FileResult :=
  let st0 : TransState :=
    { cacheData := cache0, cacheDirty := false, charCount := 0, cachedCharCount := 0 }
  let pr := translate_data cfg doc (st0, k)
  let ex := serviceExit cfg fsOk pr.2.1.1
  { out := pr.1, st := ex.1, nextK := pr.2.1.2, caught := pr.2.2,
    fsOps := ex.2.1, reportedSaveErr := ex.2.2 }

/-- The main per-file loop: every file in the list is handed to
`translate_file`; nothing ever breaks out of the loop. -/
def processFiles (cfg : Cfg) (fsOk : Bool) :
    List (J × List (List Char × List Char)) → Nat → List FileResult
  | [], _ => []
  | (doc, cache) :: rest, k =>
    let r := translate_file cfg fsOk cache doc k
    r :: processFiles cfg fsOk rest r.nextK

/-- The ten decimal digit characters. -/
def digitList : List Char := ['0', '1', '2', '3', '4', '5', '6', '7', '8', '9']

/-- Shape of a string matched by the tag pattern `{.*?}`: an opening brace,
an interior free of closing braces and newlines, and a closing brace. -/
def TagStr (t : List Char) : Prop :=
  ∃ w, t = '{' :: (w ++ ['}']) ∧ '}' ∉ w ∧ '\n' ∉ w

/-- A string is clean when every `{` in it is followed, within the string
itself, by a newline before any `}` — so no tag match can start inside it,
whatever follows. -/
def Clean (A : List Char) : Prop :=
  ∀ X b, A = X ++ '{' :: b → ∃ b₁ b₂, b = b₁ ++ '\n' :: b₂ ∧ '}' ∉ b₁

/-- Reassembling the gap/match decomposition of a text. -/
def flattenOrig : List (List Char × List Char) → List Char → List Char
  | [], gl => gl
  | (g, t) :: ps, gl => g ++ t ++ flattenOrig ps gl

/-- The decomposition with each match replaced by its positional marker,
numbering from `s`. -/
def flattenMarked : List (List Char × List Char) → List Char → Nat → List Char
  | [], gl, _ => gl
  | (g, _) :: ps, gl, s => g ++ marker s ++ flattenMarked ps gl (s + 1)

/-! ### Concrete instances used by counterexamples and witnesses -/

/-- A text that already contains the literal marker `(%0%)` ahead of a tag. -/
def rtBad : List Char := ['(', '%', '0', '%', ')', '{', 'a', '}']

/-- A plain text with one embedded tag. -/
def rtGood : List Char :=
  ['H', 'i', ' ', '{', 'n', 'a', 'm', 'e', '}', ' ', 'y', 'o', 'u']

/-- A sample translated string returned by provider stubs. -/
def ciaoText : List Char := ['C', 'i', 'a', 'o', ' ', 'm', 'o', 'n', 'd', 'o']

/-- A sample source string with enough meaningful characters. -/
def helloText : List Char := ['H', 'e', 'l', 'l', 'o', ' ', 't', 'h', 'e', 'r', 'e']

/-- A second sample translation, distinct from `ciaoText`. -/
def salveText : List Char := ['S', 'a', 'l', 'v', 'e']

/-- The empty translator state (fresh cache). -/
def st0 : TransState :=
  { cacheData := [], cacheDirty := false, charCount := 0, cachedCharCount := 0 }

/-- Configuration whose provider always fails. -/
def cfgAllFail : Cfg :=
  { disableCacheSave := false, maxRuntime := 0, elapsedAt := fun _ => 0,
    provider := fun _ _ => none }

/-- Configuration whose provider always succeeds with `ciaoText`. -/
def cfgOk : Cfg :=
  { disableCacheSave := false, maxRuntime := 0, elapsedAt := fun _ => 0,
    provider := fun _ _ => some ciaoText }

/-- Configuration whose provider fails on attempts 0–3 and succeeds on
attempt 4. -/
def cfgFail4 : Cfg :=
  { disableCacheSave := false, maxRuntime := 0, elapsedAt := fun _ => 0,
    provider := fun _ a => if a < 4 then none else some ciaoText }

/-- Configuration returning a different provider result on every call,
used to exhibit cache idempotence. -/
def cfgVarying : Cfg :=
  { disableCacheSave := false, maxRuntime := 0, elapsedAt := fun _ => 0,
    provider := fun k _ => if k = 0 then some ciaoText else some salveText }

/-- Configuration with a one-second runtime limit already exceeded at every
call (the provider stub would still succeed if it were reached). -/
def cfgLate : Cfg :=
  { disableCacheSave := false, maxRuntime := 1, elapsedAt := fun _ => 2,
    provider := fun _ _ => some ciaoText }

/-- The field name `entry`. -/
def entryKey : List Char := ['e', 'n', 't', 'r', 'y']

/-- A one-field document whose `entry` string is translatable. -/
def docA : J := J.obj [(entryKey, J.str helloText)]

/-- A document with an `items` sequence and no `type` field. -/
def doc5 : J := J.obj [(itemsKey, J.list [J.str helloText])]

/-- The field name `entries`. -/
def entriesKey : List Char := ['e', 'n', 't', 'r', 'i', 'e', 's']

/-- A document whose `entries` field holds a nested list containing a
mapping (a non-string sub-element with translatable content). -/
def doc7 : J :=
  J.obj [(entriesKey, J.list [J.list [J.obj [(entryKey, J.str helloText)]]])]

/-- Pointwise contract of the in-place string pass over a nested list:
short strings and non-strings are kept, long strings become the result of
some `translate` call. -/
def strPassRel (cfg : Cfg) (o m : J) : Prop :=
  (∀ s, o = J.str s → s.length ≤ 2 → m = o) ∧
  (∀ s, o = J.str s → 2 < s.length →
    ∃ st k, (TranslatorService.translate cfg k st s).2.err = none ∧
      m = J.str (TranslatorService.translate cfg k st s).2.result) ∧
  ((∀ s, o ≠ J.str s) → m = o)

/-- Pointwise contract of the full treatment of a nested-list element of a
named sequence field: short strings are kept verbatim, long strings are
replaced by a `translate` result, and non-strings are replaced by the
output of the generic walker on them. -/
def nestedRel (cfg : Cfg) (o r : J) : Prop :=
  (∀ s, o = J.str s → s.length ≤ 2 → r = o) ∧
  (∀ s, o = J.str s → 2 < s.length →
    ∃ st k, (TranslatorService.translate cfg k st s).2.err = none ∧
      r = J.str (TranslatorService.translate cfg k st s).2.result) ∧
  ((∀ s, o ≠ J.str s) →
    ∃ st k, (translate_data cfg o (st, k)).2.2 = none ∧
      r = (translate_data cfg o (st, k)).1)

/-! ## Theorems -/

/-! ### Path lemmas for `TranslatorService.translate` -/

theorem translate_skip (cfg : Cfg) (k : Nat) (st : TransState) (text : List Char)
    (h : meaningfulLen text < 5) :
    TranslatorService.translate cfg k st text =
      (st, { result := text, err := none, providerCalls := 0, failures := 0,
             delays := [], didLookup := false, hitCache := false, succeeded := false }) := by
  unfold TranslatorService.translate
  rw [if_pos h]

theorem translate_hit (cfg : Cfg) (k : Nat) (st : TransState) (text v : List Char)
    (h5 : ¬ meaningfulLen text < 5) (hv : dictGet st.cacheData text = some v) :
    TranslatorService.translate cfg k st text =
      ({ st with cachedCharCount := st.cachedCharCount + text.length },
       { result := v, err := none, providerCalls := 0, failures := 0,
         delays := [], didLookup := true, hitCache := true, succeeded := false }) := by
  unfold TranslatorService.translate
  rw [if_neg h5, hv]

theorem translate_deadline (cfg : Cfg) (k : Nat) (st : TransState) (text : List Char)
    (h5 : ¬ meaningfulLen text < 5) (hmiss : dictGet st.cacheData text = none)
    (hdl : cfg.maxRuntime ≠ 0 ∧ (cfg.maxRuntime : ℚ) < cfg.elapsedAt k) :
    TranslatorService.translate cfg k st text =
      (st, { result := text, err := some .deadline, providerCalls := 0,
             failures := 0, delays := [], didLookup := true, hitCache := false,
             succeeded := false }) := by
  unfold TranslatorService.translate
  rw [if_neg h5, hmiss]
  simp only [if_pos hdl]

theorem translate_fail (cfg : Cfg) (k : Nat) (st : TransState) (text : List Char)
    (h5 : ¬ meaningfulLen text < 5) (hmiss : dictGet st.cacheData text = none)
    (hdl : ¬(cfg.maxRuntime ≠ 0 ∧ (cfg.maxRuntime : ℚ) < cfg.elapsedAt k))
    (hr : retry (cfg.provider k) = none) :
    TranslatorService.translate cfg k st text =
      ({ st with charCount := st.charCount + text.length },
       { result := text, err := none, providerCalls := MAX_RETRIES,
         failures := MAX_RETRIES, delays := delaysUpTo (MAX_RETRIES - 1),
         didLookup := true, hitCache := false, succeeded := false }) := by
  unfold TranslatorService.translate
  rw [if_neg h5, hmiss]
  simp only [if_neg hdl, hr]

theorem translate_succ (cfg : Cfg) (k : Nat) (st : TransState) (text : List Char)
    (a : Nat) (res : List Char)
    (h5 : ¬ meaningfulLen text < 5) (hmiss : dictGet st.cacheData text = none)
    (hdl : ¬(cfg.maxRuntime ≠ 0 ∧ (cfg.maxRuntime : ℚ) < cfg.elapsedAt k))
    (hr : retry (cfg.provider k) = some (a, res)) :
    TranslatorService.translate cfg k st text =
      (cacheSet cfg { st with charCount := st.charCount + text.length } text
         (tags2links res (links2tags text).2),
       { result := tags2links res (links2tags text).2, err := none,
         providerCalls := a + 1, failures := a, delays := delaysUpTo a,
         didLookup := true, hitCache := false, succeeded := true }) := by
  unfold TranslatorService.translate
  rw [if_neg h5, hmiss]
  simp only [if_neg hdl, hr]

/-! ### Dictionary and retry lemmas -/

theorem dictGet_dictSet_self (d : List (List Char × List Char)) (k v : List Char) :
    dictGet (dictSet d k v) k = some v := by
  induction d with
  | nil => simp [dictSet, dictGet]
  | cons hd tl ih =>
    obtain ⟨k', v'⟩ := hd
    by_cases h : k' = k <;> simp [dictSet, dictGet, h, ih]

theorem retryAux_bound (p : Nat → Option (List Char)) :
    ∀ fuel s a r, retryAux p fuel s = some (a, r) → a < s + fuel := by
  intro fuel
  induction fuel with
  | zero => intro s a r h; simp [retryAux] at h
  | succ n ih =>
    intro s a r h
    rw [retryAux] at h
    cases hp : p s with
    | some v => rw [hp] at h; injection h with h'; cases h'; omega
    | none =>
      rw [hp] at h
      have := ih (s + 1) a r h
      omega

theorem retry_bound (p : Nat → Option (List Char)) (a : Nat) (r : List Char)
    (h : retry p = some (a, r)) : a < MAX_RETRIES := by
  have := retryAux_bound p MAX_RETRIES 0 a r h
  omega

/-! ### C6: short-text skip -/

/-- C6: any string whose content after removing tag matches and stripping
the character class `[0-9\s()\[\].,_-]` has fewer than 5 characters is
returned unchanged by `translate`, with no provider attempt, no cache
lookup and no state change. -/
theorem c6_short_text_skip (cfg : Cfg) (k : Nat) (st : TransState)
    (text : List Char) (h : meaningfulLen text < 5) :
    TranslatorService.translate cfg k st text =
      (st, { result := text, err := none, providerCalls := 0, failures := 0,
             delays := [], didLookup := false, hitCache := false,
             succeeded := false }) :=
  translate_skip cfg k st text h

/-- Witness for C6: the string `"1.2 kg"` has fewer than 5 meaningful
characters and is returned unchanged without any lookup or provider call. -/
theorem c6_witness :
    meaningfulLen ['1', '.', '2', ' ', 'k', 'g'] < 5 ∧
    TranslatorService.translate cfgAllFail 0 st0 ['1', '.', '2', ' ', 'k', 'g'] =
      (st0, { result := ['1', '.', '2', ' ', 'k', 'g'], err := none,
              providerCalls := 0, failures := 0, delays := [],
              didLookup := false, hitCache := false, succeeded := false }) :=
  ⟨by decide, c6_short_text_skip cfgAllFail 0 st0 ['1', '.', '2', ' ', 'k', 'g'] (by decide)⟩

/-! ### C9: provider character counter (corrected) -/

/-- The cache write never touches the character counters. -/
theorem cacheSet_charCount (cfg : Cfg) (st : TransState) (k v : List Char) :
    (cacheSet cfg st k v).charCount = st.charCount := by
  unfold cacheSet
  split <;> rfl

/-- C9, counterexample to the claim as stated: with a provider that fails
all five attempts, the call still increases `charCount` by the length of
the text, while the claim asserts the counter is left unchanged when all
provider attempts fail. -/
theorem c9_counterexample :
    (TranslatorService.translate cfgAllFail 0 st0 helloText).2.failures = MAX_RETRIES ∧
    (TranslatorService.translate cfgAllFail 0 st0 helloText).2.succeeded = false ∧
    (TranslatorService.translate cfgAllFail 0 st0 helloText).1.charCount ≠ st0.charCount := by
  decide

/-- C9 (amended): `charCount` grows by the length of the source text on
every cache miss that passes the deadline check — whether or not any
provider attempt succeeds — and is unchanged on the short-text, cache-hit
and deadline paths. -/
theorem c9_char_counter (cfg : Cfg) (k : Nat) (st : TransState) (text : List Char) :
    (¬ meaningfulLen text < 5 → dictGet st.cacheData text = none →
      ¬(cfg.maxRuntime ≠ 0 ∧ (cfg.maxRuntime : ℚ) < cfg.elapsedAt k) →
      (TranslatorService.translate cfg k st text).1.charCount =
        st.charCount + text.length) ∧
    (meaningfulLen text < 5 ∨ (dictGet st.cacheData text).isSome = true ∨
      (cfg.maxRuntime ≠ 0 ∧ (cfg.maxRuntime : ℚ) < cfg.elapsedAt k) →
      (TranslatorService.translate cfg k st text).1.charCount = st.charCount) := by
  constructor
  · intro h5 hmiss hdl
    cases hr : retry (cfg.provider k) with
    | none => rw [translate_fail cfg k st text h5 hmiss hdl hr]
    | some pr =>
      obtain ⟨a, res⟩ := pr
      rw [translate_succ cfg k st text a res h5 hmiss hdl hr]
      exact cacheSet_charCount cfg _ text _
  · intro h
    by_cases h5 : meaningfulLen text < 5
    · rw [translate_skip cfg k st text h5]
    · cases hget : dictGet st.cacheData text with
      | some v => rw [translate_hit cfg k st text v h5 hget]
      | none =>
        rcases h with h | h | h
        · exact absurd h h5
        · rw [hget] at h; simp at h
        · rw [translate_deadline cfg k st text h5 hget h]

/-- Witness for C9 (amended): a miss whose provider fails every attempt
still increments the counter by the text length. -/
theorem c9_witness :
    ¬ meaningfulLen helloText < 5 ∧
    (TranslatorService.translate cfgAllFail 0 st0 helloText).1.charCount =
      st0.charCount + helloText.length :=
  ⟨by decide,
   (c9_char_counter cfgAllFail 0 st0 helloText).1 (by decide) (by decide) (by decide)⟩

/-! ### C10: no cache write without a successful provider call -/

/-- C10: on every path of `translate` that does not end in a successful
provider attempt — the short-text skip, the cache hit, the deadline raise
and the all-attempts-failed path — the cache mapping and the dirty flag
are left exactly as they were. -/
theorem c10_no_write_without_success (cfg : Cfg) (k : Nat) (st : TransState)
    (text : List Char)
    (h : (TranslatorService.translate cfg k st text).2.succeeded = false) :
    (TranslatorService.translate cfg k st text).1.cacheData = st.cacheData ∧
    (TranslatorService.translate cfg k st text).1.cacheDirty = st.cacheDirty := by
  by_cases h5 : meaningfulLen text < 5
  · rw [translate_skip cfg k st text h5]; exact ⟨rfl, rfl⟩
  · cases hget : dictGet st.cacheData text with
    | some v => rw [translate_hit cfg k st text v h5 hget]; exact ⟨rfl, rfl⟩
    | none =>
      by_cases hdl : cfg.maxRuntime ≠ 0 ∧ (cfg.maxRuntime : ℚ) < cfg.elapsedAt k
      · rw [translate_deadline cfg k st text h5 hget hdl]; exact ⟨rfl, rfl⟩
      · cases hr : retry (cfg.provider k) with
        | none => rw [translate_fail cfg k st text h5 hget hdl hr]; exact ⟨rfl, rfl⟩
        | some pr =>
          obtain ⟨a, res⟩ := pr
          rw [translate_succ cfg k st text a res h5 hget hdl hr] at h
          simp at h

/-- Witness for C10: the all-attempts-failed path leaves cache and dirty
flag untouched. -/
theorem c10_witness :
    (TranslatorService.translate cfgAllFail 0 st0 helloText).2.succeeded = false ∧
    (TranslatorService.translate cfgAllFail 0 st0 helloText).1.cacheData = st0.cacheData ∧
    (TranslatorService.translate cfgAllFail 0 st0 helloText).1.cacheDirty = st0.cacheDirty :=
  ⟨by decide, c10_no_write_without_success cfgAllFail 0 st0 helloText (by decide)⟩

/-! ### C2: idempotent cache -/

/-- C2: once a call for `text` misses the cache and a provider attempt
succeeds, calling `translate` again on the unchanged state — with any
provider whatsoever, in particular one returning different results — is a
cache hit: it returns the same result, makes no provider attempt and
leaves the cache mapping unchanged. -/
theorem c2_idempotent_cache (cfg cfg2 : Cfg) (k k2 : Nat) (st : TransState)
    (text : List Char) (a : Nat) (res : List Char)
    (hdc : cfg.disableCacheSave = false)
    (h5 : ¬ meaningfulLen text < 5)
    (hmiss : dictGet st.cacheData text = none)
    (hdl : ¬(cfg.maxRuntime ≠ 0 ∧ (cfg.maxRuntime : ℚ) < cfg.elapsedAt k))
    (hr : retry (cfg.provider k) = some (a, res)) :
    (TranslatorService.translate cfg k st text).2.succeeded = true ∧
    TranslatorService.translate cfg2 k2 (TranslatorService.translate cfg k st text).1 text =
      ({ (TranslatorService.translate cfg k st text).1 with
          cachedCharCount :=
            (TranslatorService.translate cfg k st text).1.cachedCharCount + text.length },
       { result := (TranslatorService.translate cfg k st text).2.result, err := none,
         providerCalls := 0, failures := 0, delays := [], didLookup := true,
         hitCache := true, succeeded := false }) := by
  rw [translate_succ cfg k st text a res h5 hmiss hdl hr]
  refine ⟨rfl, ?_⟩
  have hcache : (cacheSet cfg { st with charCount := st.charCount + text.length } text
      (tags2links res (links2tags text).2)).cacheData =
      dictSet st.cacheData text (tags2links res (links2tags text).2) := by
    unfold cacheSet
    rw [if_neg (by simp [hdc])]
  have hget : dictGet (cacheSet cfg { st with charCount := st.charCount + text.length }
      text (tags2links res (links2tags text).2)).cacheData text =
      some (tags2links res (links2tags text).2) := by
    rw [hcache]
    exact dictGet_dictSet_self _ _ _
  rw [translate_hit cfg2 k2 _ text _ h5 hget]

/-- Witness for C2: with a provider returning `ciaoText` on call 0 and
`salveText` on every later call, the second translation of `helloText` is
a cache hit that still returns `ciaoText`. -/
theorem c2_witness :
    (TranslatorService.translate cfgVarying 0 st0 helloText).2.succeeded = true ∧
    TranslatorService.translate cfgVarying 1
        (TranslatorService.translate cfgVarying 0 st0 helloText).1 helloText =
      ({ (TranslatorService.translate cfgVarying 0 st0 helloText).1 with
          cachedCharCount :=
            (TranslatorService.translate cfgVarying 0 st0 helloText).1.cachedCharCount +
              helloText.length },
       { result := (TranslatorService.translate cfgVarying 0 st0 helloText).2.result,
         err := none, providerCalls := 0, failures := 0, delays := [],
         didLookup := true, hitCache := true, succeeded := false }) :=
  c2_idempotent_cache cfgVarying cfgVarying 0 1 st0 helloText 0 ciaoText
    (by decide) (by decide) (by decide) (by decide) (by decide)

/-! ### C4: retry loop with exponential backoff -/

/-- C4: on a cache miss the provider is attempted at most `MAX_RETRIES = 5`
times, with backoff delays `BASE_DELAY * 2^(attempt-1)` before every
attempt after the first; a provider failing on attempts 0–3 and succeeding
on attempt 4 yields the tag-restored success result with exactly 4 recorded
failures and delays `[1, 2, 4, 8]`; a provider failing on all 5 attempts
yields the original text unchanged — not an error — with exactly 5 recorded
failures and the cache untouched. -/
theorem c4_retry_backoff (cfg : Cfg) (k : Nat) (st : TransState)
    (text res : List Char)
    (h5 : ¬ meaningfulLen text < 5)
    (hmiss : dictGet st.cacheData text = none)
    (hdl : ¬(cfg.maxRuntime ≠ 0 ∧ (cfg.maxRuntime : ℚ) < cfg.elapsedAt k)) :
    ((TranslatorService.translate cfg k st text).2.providerCalls ≤ MAX_RETRIES ∧
      (TranslatorService.translate cfg k st text).2.delays =
        delaysUpTo ((TranslatorService.translate cfg k st text).2.providerCalls - 1)) ∧
    ((∀ a, a < 4 → cfg.provider k a = none) → cfg.provider k 4 = some res →
      (TranslatorService.translate cfg k st text).2.result =
          tags2links res (links2tags text).2 ∧
        (TranslatorService.translate cfg k st text).2.failures = 4 ∧
        (TranslatorService.translate cfg k st text).2.succeeded = true ∧
        (TranslatorService.translate cfg k st text).2.delays = [1, 2, 4, 8]) ∧
    ((∀ a, a < 5 → cfg.provider k a = none) →
      (TranslatorService.translate cfg k st text).2.result = text ∧
        (TranslatorService.translate cfg k st text).2.failures = MAX_RETRIES ∧
        (TranslatorService.translate cfg k st text).2.err = none ∧
        (TranslatorService.translate cfg k st text).1.cacheData = st.cacheData) := by
  refine ⟨?_, ?_, ?_⟩
  · cases hr : retry (cfg.provider k) with
    | none =>
      rw [translate_fail cfg k st text h5 hmiss hdl hr]
      exact ⟨le_refl _, rfl⟩
    | some pr =>
      obtain ⟨a, res'⟩ := pr
      rw [translate_succ cfg k st text a res' h5 hmiss hdl hr]
      have := retry_bound (cfg.provider k) a res' hr
      constructor
      · show a + 1 ≤ MAX_RETRIES
        omega
      · show delaysUpTo a = delaysUpTo (a + 1 - 1)
        simp
  · intro hfail hs
    have h0 := hfail 0 (by norm_num)
    have h1 := hfail 1 (by norm_num)
    have h2 := hfail 2 (by norm_num)
    have h3 := hfail 3 (by norm_num)
    have hr : retry (cfg.provider k) = some (4, res) := by
      simp [retry, MAX_RETRIES, retryAux, h0, h1, h2, h3, hs]
    rw [translate_succ cfg k st text 4 res h5 hmiss hdl hr]
    refine ⟨rfl, rfl, rfl, ?_⟩
    show delaysUpTo 4 = [1, 2, 4, 8]
    norm_num [delaysUpTo, BASE_DELAY, List.range_succ]
  · intro hfail
    have h0 := hfail 0 (by norm_num)
    have h1 := hfail 1 (by norm_num)
    have h2 := hfail 2 (by norm_num)
    have h3 := hfail 3 (by norm_num)
    have h4 := hfail 4 (by norm_num)
    have hr : retry (cfg.provider k) = none := by
      simp [retry, MAX_RETRIES, retryAux, h0, h1, h2, h3, h4]
    rw [translate_fail cfg k st text h5 hmiss hdl hr]
    exact ⟨rfl, rfl, rfl, rfl⟩

/-- Witness for C4: the fail-four-then-succeed provider yields the success
result with 4 failures and delays 1, 2, 4, 8; the always-failing provider
yields the text itself with 5 failures. -/
theorem c4_witness :
    ((TranslatorService.translate cfgFail4 0 st0 helloText).2.result =
        tags2links ciaoText (links2tags helloText).2 ∧
      (TranslatorService.translate cfgFail4 0 st0 helloText).2.failures = 4 ∧
      (TranslatorService.translate cfgFail4 0 st0 helloText).2.succeeded = true ∧
      (TranslatorService.translate cfgFail4 0 st0 helloText).2.delays = [1, 2, 4, 8]) ∧
    ((TranslatorService.translate cfgAllFail 0 st0 helloText).2.result = helloText ∧
      (TranslatorService.translate cfgAllFail 0 st0 helloText).2.failures = MAX_RETRIES ∧
      (TranslatorService.translate cfgAllFail 0 st0 helloText).2.err = none ∧
      (TranslatorService.translate cfgAllFail 0 st0 helloText).1.cacheData = st0.cacheData) :=
  ⟨((c4_retry_backoff cfgFail4 0 st0 helloText ciaoText (by decide) (by decide)
      (by decide)).2.1 (by decide) (by decide)),
   ((c4_retry_backoff cfgAllFail 0 st0 helloText ciaoText (by decide) (by decide)
      (by decide)).2.2 (by decide))⟩

/-! ### C8: closing the cache scope -/

/-- C8: leaving the translator scope persists the mapping exactly when the
dirty flag is set, cache saving is enabled and the file system cooperates;
persisting writes the full mapping to the temporary file and then renames
it into place and clears the dirty flag; a persistence failure is only
reported — the state is kept and nothing is raised. -/
theorem c8_cache_close (cfg : Cfg) (fsOk : Bool) (st : TransState) :
    ((serviceExit cfg fsOk st).2.1 ≠ [] ↔
      st.cacheDirty = true ∧ cfg.disableCacheSave = false ∧ fsOk = true) ∧
    (st.cacheDirty = true → cfg.disableCacheSave = false → fsOk = true →
      serviceExit cfg fsOk st =
        ({ st with cacheDirty := false },
         [FsOp.writeTemp st.cacheData, FsOp.renameTempToReal], false)) ∧
    (st.cacheDirty = true → cfg.disableCacheSave = false → fsOk = false →
      serviceExit cfg fsOk st = (st, [], true)) ∧
    (st.cacheDirty = false ∨ cfg.disableCacheSave = true →
      serviceExit cfg fsOk st = (st, [], false)) := by
  unfold serviceExit cacheSync
  rcases hd : st.cacheDirty <;> rcases hc : cfg.disableCacheSave <;>
    rcases hf : fsOk <;> simp

/-- Witness for C8: a dirty cache with saving enabled is flushed as a
temp-write followed by a rename, and the dirty flag is cleared. -/
theorem c8_witness :
    serviceExit cfgOk true
        { cacheData := [(helloText, ciaoText)], cacheDirty := true,
          charCount := 0, cachedCharCount := 0 } =
      ({ cacheData := [(helloText, ciaoText)], cacheDirty := false,
         charCount := 0, cachedCharCount := 0 },
       [FsOp.writeTemp [(helloText, ciaoText)], FsOp.renameTempToReal], false) :=
  (c8_cache_close cfgOk true
      { cacheData := [(helloText, ciaoText)], cacheDirty := true,
        charCount := 0, cachedCharCount := 0 }).2.1 (by decide) (by decide) (by decide)

/-! ### C1: the deadline condition and the per-file loop (corrected) -/

/-- C1, counterexample to the claim as stated: with a one-second limit and
the clock already past it, the first document's cache miss raises the
deadline condition, but `translate_file` catches it, and the second
document is still processed by the main loop — here it is even rewritten
from its cache.  The claim asserts no further documents are processed
after the condition fires. -/
theorem c1_counterexample :
    (processFiles cfgLate true [(docA, []), (docA, [(helloText, ciaoText)])] 0).map
        FileResult.caught = [some PyErr.deadline, none] ∧
    (processFiles cfgLate true [(docA, []), (docA, [(helloText, ciaoText)])] 0).map
        FileResult.out = [docA, J.obj [(entryKey, J.str ciaoText)]] := by
  constructor <;> rfl

/-- C1 (amended): when the runtime limit is configured and exceeded at a
cache miss, `translate` raises the deadline condition without touching the
translator state; the per-file driver catches every exception, so the main
loop still hands every remaining file to `translate_file`. -/
theorem c1_deadline_caught_per_file :
    (∀ (cfg : Cfg) (k : Nat) (st : TransState) (text : List Char),
      ¬ meaningfulLen text < 5 → dictGet st.cacheData text = none →
      cfg.maxRuntime ≠ 0 → (cfg.maxRuntime : ℚ) < cfg.elapsedAt k →
      (TranslatorService.translate cfg k st text).2.err = some PyErr.deadline ∧
      (TranslatorService.translate cfg k st text).1 = st) ∧
    (∀ (cfg : Cfg) (fsOk : Bool)
      (files : List (J × List (List Char × List Char))) (k : Nat),
      (processFiles cfg fsOk files k).length = files.length) := by
  constructor
  · intro cfg k st text h5 hmiss hmr hel
    rw [translate_deadline cfg k st text h5 hmiss ⟨hmr, hel⟩]
    exact ⟨rfl, rfl⟩
  · intro cfg fsOk files
    induction files with
    | nil => intro k; rfl
    | cons f rest ih =>
      intro k
      obtain ⟨doc, cache⟩ := f
      simp only [processFiles, List.length_cons]
      rw [ih]

/-- Witness for C1 (amended): the late clock raises the deadline on a
miss, and a two-file list still yields two processed files. -/
theorem c1_witness :
    (TranslatorService.translate cfgLate 0 st0 helloText).2.err = some PyErr.deadline ∧
    (processFiles cfgLate true [(docA, []), (docA, [])] 0).length = 2 :=
  ⟨(c1_deadline_caught_per_file.1 cfgLate 0 st0 helloText (by decide) (by decide)
      (by decide) (by decide)).1,
   c1_deadline_caught_per_file.2 cfgLate true [(docA, []), (docA, [])] 0⟩

/-! ### Walker lemmas for the mapping traversal -/

/-- Processing one field of a mapping either stops with an exception,
leaving the remaining fields untouched, or continues on the tail with the
field's value rewritten; in both cases, a field named `type` keeps its
exact string value (only generic recursion ever touches it) or stays a
non-string. -/
theorem objAux_cons (cfg : Cfg) (done rest : List (List Char × J)) (k : List Char)
    (v : J) (S : TransState × Nat) :
    (∃ v' S₁ e, translateObjAux cfg done ((k, v) :: rest) S =
        (done ++ (k, v') :: rest, S₁, some e) ∧
      (k = typeKey → v' = v ∨ ((∀ s, v ≠ J.str s) ∧ (∀ s, v' ≠ J.str s)))) ∨
    (∃ v' S₁, translateObjAux cfg done ((k, v) :: rest) S =
        translateObjAux cfg (done ++ [(k, v')]) rest S₁ ∧
      (k = typeKey → v' = v ∨ ((∀ s, v ≠ J.str s) ∧ (∀ s, v' ≠ J.str s)))) := by
  cases v with
  | str s =>
    by_cases hee : k ∈ entryEffectKeys
    · have hknot : k = typeKey → False := by
        intro hk; rw [hk] at hee; exact absurd hee (by decide)
      cases herr : (TranslatorService.translate cfg S.2 S.1 s).2.err with
      | some e =>
        left
        refine ⟨J.str s, ((TranslatorService.translate cfg S.2 S.1 s).1, S.2 + 1), e, ?_, ?_⟩
        · simp only [translateObjAux, if_pos hee, herr]
        · intro hk; exact absurd hk hknot
      | none =>
        right
        refine ⟨J.str (TranslatorService.translate cfg S.2 S.1 s).2.result,
          ((TranslatorService.translate cfg S.2 S.1 s).1, S.2 + 1), ?_, ?_⟩
        · simp only [translateObjAux, if_pos hee, herr]
        · intro hk; exact absurd hk hknot
    · right
      refine ⟨J.str s, S, ?_, fun _ => Or.inl rfl⟩
      simp only [translateObjAux, if_neg hee]
  | obj sections =>
    by_cases ho : k = otherKey
    · cases herr : (otherSections cfg sections S).2.2 with
      | some e =>
        left
        refine ⟨J.obj (otherSections cfg sections S).1, (otherSections cfg sections S).2.1,
          e, ?_, fun _ => Or.inr ⟨fun s h => J.noConfusion h, fun s h => J.noConfusion h⟩⟩
        simp only [translateObjAux, if_pos ho, herr]
      | none =>
        right
        refine ⟨J.obj (otherSections cfg sections S).1, (otherSections cfg sections S).2.1,
          ?_, fun _ => Or.inr ⟨fun s h => J.noConfusion h, fun s h => J.noConfusion h⟩⟩
        simp only [translateObjAux, if_pos ho, herr]
    · cases herr : (translateObjAux cfg [] sections S).2.2 with
      | some e =>
        left
        refine ⟨J.obj (translateObjAux cfg [] sections S).1,
          (translateObjAux cfg [] sections S).2.1, e, ?_,
          fun _ => Or.inr ⟨fun s h => J.noConfusion h, fun s h => J.noConfusion h⟩⟩
        simp only [translateObjAux, if_neg ho, herr]
      | none =>
        right
        refine ⟨J.obj (translateObjAux cfg [] sections S).1,
          (translateObjAux cfg [] sections S).2.1, ?_,
          fun _ => Or.inr ⟨fun s h => J.noConfusion h, fun s h => J.noConfusion h⟩⟩
        simp only [translateObjAux, if_neg ho, herr]
  | list vs =>
    have hnonstr : (∀ s, J.list vs ≠ J.str s) := fun s h => J.noConfusion h
    by_cases hlf : k ∈ listFieldKeys
    · by_cases hskip : k = itemsKey ∧ ¬typeIsListAt (done ++ (k, J.list vs) :: rest)
      · right
        refine ⟨J.list vs, S, ?_, fun _ => Or.inl rfl⟩
        simp only [translateObjAux, if_pos hlf, if_pos hskip]
      · cases herr : (entriesLoop cfg vs S).2.2 with
        | some e =>
          left
          refine ⟨J.list (entriesLoop cfg vs S).1, (entriesLoop cfg vs S).2.1, e, ?_,
            fun _ => Or.inr ⟨hnonstr, fun s h => J.noConfusion h⟩⟩
          simp only [translateObjAux, if_pos hlf, if_neg hskip, herr]
        | none =>
          right
          refine ⟨J.list (entriesLoop cfg vs S).1, (entriesLoop cfg vs S).2.1, ?_,
            fun _ => Or.inr ⟨hnonstr, fun s h => J.noConfusion h⟩⟩
          simp only [translateObjAux, if_pos hlf, if_neg hskip, herr]
    · cases herr : (translateListAux cfg vs S).2.2 with
      | some e =>
        left
        refine ⟨J.list (translateListAux cfg vs S).1, (translateListAux cfg vs S).2.1, e, ?_,
          fun _ => Or.inr ⟨hnonstr, fun s h => J.noConfusion h⟩⟩
        simp only [translateObjAux, if_neg hlf, herr]
      | none =>
        right
        refine ⟨J.list (translateListAux cfg vs S).1, (translateListAux cfg vs S).2.1, ?_,
          fun _ => Or.inr ⟨hnonstr, fun s h => J.noConfusion h⟩⟩
        simp only [translateObjAux, if_neg hlf, herr]
  | num n =>
    right
    refine ⟨J.num n, S, ?_, fun _ => Or.inr ⟨fun s h => J.noConfusion h, fun s h => J.noConfusion h⟩⟩
    simp only [translateObjAux]

/-- The walker only ever appends to the processed prefix of a mapping. -/
theorem objAux_keeps_done (cfg : Cfg) :
    ∀ (todo done : List (List Char × J)) (S : TransState × Nat),
    ∃ tail, (translateObjAux cfg done todo S).1 = done ++ tail := by
  intro todo
  induction todo with
  | nil =>
    intro done S
    exact ⟨[], by simp [translateObjAux]⟩
  | cons f rest ih =>
    intro done S
    obtain ⟨k, v⟩ := f
    rcases objAux_cons cfg done rest k v S with ⟨v', S₁, e, heq, _⟩ | ⟨v', S₁, heq, _⟩
    · exact ⟨(k, v') :: rest, by rw [heq]⟩
    · obtain ⟨tail, htail⟩ := ih (done ++ [(k, v')]) S₁
      refine ⟨(k, v') :: tail, ?_⟩
      rw [heq, htail, List.append_assoc]
      rfl

theorem jLookup_append_right (fs gs : List (List Char × J)) (key : List Char)
    (h : ∀ p ∈ fs, p.1 ≠ key) : jLookup (fs ++ gs) key = jLookup gs key := by
  induction fs with
  | nil => rfl
  | cons f rest ih =>
    obtain ⟨k', v'⟩ := f
    have hne : k' ≠ key := h (k', v') (List.mem_cons_self _ _)
    simp only [List.cons_append, jLookup, if_neg hne]
    exact ih (fun p hp => h p (List.mem_cons_of_mem _ hp))

/-- Rewriting one field's value does not change whether the mapping's
`type` field equals `"list"`, as long as a `type`-named field keeps its
exact string value or stays a non-string. -/
theorem typeIsListAt_mid (done rest : List (List Char × J)) (k : List Char) (v v' : J)
    (hsh : k = typeKey → v' = v ∨ ((∀ s, v ≠ J.str s) ∧ (∀ s, v' ≠ J.str s))) :
    typeIsListAt (done ++ (k, v) :: rest) = typeIsListAt (done ++ (k, v') :: rest) := by
  induction done with
  | nil =>
    by_cases hk : k = typeKey
    · rcases hsh hk with h | ⟨h1, h2⟩
      · rw [h]
      · simp only [List.nil_append, typeIsListAt, jLookup, if_pos hk]
        cases v with
        | str s => exact absurd rfl (h1 s)
        | _ =>
          cases v' with
          | str s => exact absurd rfl (h2 s)
          | _ => rfl
    · simp only [List.nil_append, typeIsListAt, jLookup, if_neg hk]
  | cons f restd ih =>
    obtain ⟨k₀, v₀⟩ := f
    by_cases hk₀ : k₀ = typeKey
    · simp only [List.cons_append, typeIsListAt, jLookup, if_pos hk₀]
    · simpa only [List.cons_append, typeIsListAt, jLookup, if_neg hk₀] using ih

/-- When the live `type` field is not the string `"list"`, the walker
leaves an `items` sequence field completely untouched, whatever else it
does to the mapping. -/
theorem objAux_items_skip (cfg : Cfg) :
    ∀ (pre done post : List (List Char × J)) (S : TransState × Nat) (vs : List J),
    (∀ p ∈ pre, p.1 ≠ itemsKey) → (∀ p ∈ done, p.1 ≠ itemsKey) →
    typeIsListAt (done ++ pre ++ (itemsKey, J.list vs) :: post) = false →
    jLookup (translateObjAux cfg done (pre ++ (itemsKey, J.list vs) :: post) S).1
      itemsKey = some (J.list vs) := by
  intro pre
  induction pre with
  | nil =>
    intro done post S vs _ hdone hty
    simp only [List.append_nil, List.nil_append] at hty
    have hstep : translateObjAux cfg done ((itemsKey, J.list vs) :: post) S =
        translateObjAux cfg (done ++ [(itemsKey, J.list vs)]) post S := by
      simp [translateObjAux, hty, show itemsKey ∈ listFieldKeys by decide]
    simp only [List.nil_append]
    rw [hstep]
    obtain ⟨tail, htail⟩ := objAux_keeps_done cfg post (done ++ [(itemsKey, J.list vs)]) S
    rw [htail, List.append_assoc]
    rw [jLookup_append_right done _ itemsKey hdone]
    rfl
  | cons f pre' ih =>
    intro done post S vs hpre hdone hty
    obtain ⟨k, v⟩ := f
    have hk : k ≠ itemsKey := hpre (k, v) (List.mem_cons_self _ _)
    have hpre' : ∀ p ∈ pre', p.1 ≠ itemsKey :=
      fun p hp => hpre p (List.mem_cons_of_mem _ hp)
    rcases objAux_cons cfg done (pre' ++ (itemsKey, J.list vs) :: post) k v S with
      ⟨v', S₁, e, heq, hsh⟩ | ⟨v', S₁, heq, hsh⟩
    · rw [List.cons_append, heq]
      have hrw : done ++ (k, v') :: (pre' ++ (itemsKey, J.list vs) :: post) =
          (done ++ (k, v') :: pre') ++ (itemsKey, J.list vs) :: post := by
        simp [List.append_assoc]
      rw [hrw, jLookup_append_right _ _ itemsKey ?_]
      · rfl
      · intro p hp
        rcases List.mem_append.mp hp with h | h
        · exact hdone p h
        · rcases List.mem_cons.mp h with h | h
          · rw [h]; exact hk
          · exact hpre' p h
    · rw [List.cons_append, heq]
      have hty' : typeIsListAt ((done ++ [(k, v')]) ++ pre' ++
          (itemsKey, J.list vs) :: post) = false := by
        have hmid := typeIsListAt_mid done (pre' ++ (itemsKey, J.list vs) :: post) k v v' hsh
        have h1 : done ++ (k, v) :: (pre' ++ (itemsKey, J.list vs) :: post) =
            done ++ ((k, v) :: pre') ++ (itemsKey, J.list vs) :: post := by
          simp [List.append_assoc]
        have h2 : done ++ (k, v') :: (pre' ++ (itemsKey, J.list vs) :: post) =
            (done ++ [(k, v')]) ++ pre' ++ (itemsKey, J.list vs) :: post := by
          simp [List.append_assoc]
        rw [h1] at hmid
        rw [h2] at hmid
        rw [← hmid]
        simpa [List.append_assoc] using hty
      have hdone' : ∀ p ∈ done ++ [(k, v')], p.1 ≠ itemsKey := by
        intro p hp
        rcases List.mem_append.mp hp with h | h
        · exact hdone p h
        · rcases List.mem_cons.mp h with h | h
          · rw [h]; exact hk
          · cases h
      exact ih (done ++ [(k, v')]) post S₁ vs hpre' hdone' hty'

/-- When the live `type` field is the string `"list"` and the walk of the
mapping finishes without an exception, the `items` sequence field is
rewritten to exactly the result of the named-sequence-field loop
(`entriesLoop`) on its elements. -/
theorem objAux_items_proc (cfg : Cfg) :
    ∀ (pre done post : List (List Char × J)) (S : TransState × Nat) (vs : List J),
    (∀ p ∈ pre, p.1 ≠ itemsKey) → (∀ p ∈ done, p.1 ≠ itemsKey) →
    typeIsListAt (done ++ pre ++ (itemsKey, J.list vs) :: post) = true →
    (translateObjAux cfg done (pre ++ (itemsKey, J.list vs) :: post) S).2.2 = none →
    ∃ S₁, (entriesLoop cfg vs S₁).2.2 = none ∧
      jLookup (translateObjAux cfg done (pre ++ (itemsKey, J.list vs) :: post) S).1
        itemsKey = some (J.list (entriesLoop cfg vs S₁).1) := by
  intro pre
  induction pre with
  | nil =>
    intro done post S vs _ hdone hty hnone
    simp only [List.append_nil, List.nil_append] at hty hnone ⊢
    cases herr : (entriesLoop cfg vs S).2.2 with
    | some e =>
      exfalso
      simp [translateObjAux, hty, herr,
        show itemsKey ∈ listFieldKeys by decide] at hnone
    | none =>
      refine ⟨S, herr, ?_⟩
      have hstep : translateObjAux cfg done ((itemsKey, J.list vs) :: post) S =
          translateObjAux cfg (done ++ [(itemsKey, J.list (entriesLoop cfg vs S).1)])
            post (entriesLoop cfg vs S).2.1 := by
        simp [translateObjAux, hty, herr, show itemsKey ∈ listFieldKeys by decide]
      rw [hstep]
      obtain ⟨tail, htail⟩ := objAux_keeps_done cfg post
        (done ++ [(itemsKey, J.list (entriesLoop cfg vs S).1)]) (entriesLoop cfg vs S).2.1
      rw [htail, List.append_assoc]
      rw [jLookup_append_right done _ itemsKey hdone]
      rfl
  | cons f pre' ih =>
    intro done post S vs hpre hdone hty hnone
    obtain ⟨k, v⟩ := f
    have hk : k ≠ itemsKey := hpre (k, v) (List.mem_cons_self _ _)
    have hpre' : ∀ p ∈ pre', p.1 ≠ itemsKey :=
      fun p hp => hpre p (List.mem_cons_of_mem _ hp)
    rcases objAux_cons cfg done (pre' ++ (itemsKey, J.list vs) :: post) k v S with
      ⟨v', S₁, e, heq, hsh⟩ | ⟨v', S₁, heq, hsh⟩
    · exfalso
      rw [List.cons_append, heq] at hnone
      simp at hnone
    · rw [List.cons_append, heq] at hnone ⊢
      have hty' : typeIsListAt ((done ++ [(k, v')]) ++ pre' ++
          (itemsKey, J.list vs) :: post) = true := by
        have hmid := typeIsListAt_mid done (pre' ++ (itemsKey, J.list vs) :: post) k v v' hsh
        have h1 : done ++ (k, v) :: (pre' ++ (itemsKey, J.list vs) :: post) =
            done ++ ((k, v) :: pre') ++ (itemsKey, J.list vs) :: post := by
          simp [List.append_assoc]
        have h2 : done ++ (k, v') :: (pre' ++ (itemsKey, J.list vs) :: post) =
            (done ++ [(k, v')]) ++ pre' ++ (itemsKey, J.list vs) :: post := by
          simp [List.append_assoc]
        rw [h1] at hmid
        rw [h2] at hmid
        rw [← hmid]
        simpa [List.append_assoc] using hty
      have hdone' : ∀ p ∈ done ++ [(k, v')], p.1 ≠ itemsKey := by
        intro p hp
        rcases List.mem_append.mp hp with h | h
        · exact hdone p h
        · rcases List.mem_cons.mp h with h | h
          · rw [h]; exact hk
          · cases h
      exact ih (done ++ [(k, v')]) post S₁ vs hpre' hdone' hty' hnone

/-! ### C5: the `items`/`type` rule (corrected) -/

/-- C5, counterexample to the claim as stated: a mapping whose `items`
field holds a sequence but whose `type` field is *absent* is skipped
entirely by the walker — document, state and call counter come back
unchanged — although the provider would have translated the string (the
claim asserts the elements are processed when `type` is absent). -/
theorem c5_counterexample :
    translate_data cfgOk doc5 (st0, 0) = (doc5, (st0, 0), none) ∧
    (TranslatorService.translate cfgOk 0 st0 helloText).2.result = ciaoText ∧
    ciaoText ≠ helloText :=
  ⟨rfl, rfl, by decide⟩

/-- C5 (amended): for a mapping whose `items` field holds a sequence, the
walker skips the field — leaving it exactly as it was — precisely when the
`type` field is absent or not equal to the string `"list"`; when `type`
equals `"list"`, the field is rewritten to the named-sequence-field loop's
output on its elements. -/
theorem c5_items_rule (cfg : Cfg) (S : TransState × Nat)
    (pre post : List (List Char × J)) (vs : List J)
    (hpre : ∀ p ∈ pre, p.1 ≠ itemsKey) :
    (typeIsListAt (pre ++ (itemsKey, J.list vs) :: post) = false →
      ∀ gs S' e, translate_data cfg (J.obj (pre ++ (itemsKey, J.list vs) :: post)) S =
          (J.obj gs, S', e) →
        jLookup gs itemsKey = some (J.list vs)) ∧
    (typeIsListAt (pre ++ (itemsKey, J.list vs) :: post) = true →
      ∀ gs S', translate_data cfg (J.obj (pre ++ (itemsKey, J.list vs) :: post)) S =
          (J.obj gs, S', none) →
        ∃ S₁, (entriesLoop cfg vs S₁).2.2 = none ∧
          jLookup gs itemsKey = some (J.list (entriesLoop cfg vs S₁).1)) := by
  constructor
  · intro hty gs S' e heq
    simp only [translate_data] at heq
    have hgs : (translateObjAux cfg [] (pre ++ (itemsKey, J.list vs) :: post) S).1 = gs := by
      have := congrArg Prod.fst heq
      simpa using J.obj.inj this
    rw [← hgs]
    exact objAux_items_skip cfg pre [] post S vs hpre (fun p hp => absurd hp (List.not_mem_nil p))
      (by simpa using hty)
  · intro hty gs S' heq
    simp only [translate_data] at heq
    have hgs : (translateObjAux cfg [] (pre ++ (itemsKey, J.list vs) :: post) S).1 = gs := by
      have := congrArg Prod.fst heq
      simpa using J.obj.inj this
    have hnone : (translateObjAux cfg [] (pre ++ (itemsKey, J.list vs) :: post) S).2.2 = none := by
      have := congrArg (fun pr => pr.2.2) heq
      simpa using this
    obtain ⟨S₁, h₁, h₂⟩ := objAux_items_proc cfg pre [] post S vs hpre
      (fun p hp => absurd hp (List.not_mem_nil p)) (by simpa using hty) hnone
    exact ⟨S₁, h₁, by rw [← hgs]; exact h₂⟩

/-- Witness for C5 (amended): the one-field `items` document with no
`type` field keeps its `items` value verbatim. -/
theorem c5_witness :
    jLookup [(itemsKey, J.list [J.str helloText])] itemsKey =
      some (J.list [J.str helloText]) :=
  (c5_items_rule cfgOk (st0, 0) [] [] [J.str helloText]
      (fun p hp => absurd hp (List.not_mem_nil p))).1 (by decide)
    [(itemsKey, J.list [J.str helloText])] (st0, 0) none rfl

/-! ### C7: nested lists inside named sequence fields (corrected) -/

/-- Contract of the in-place string pass: when it raises no exception it
relates every original sub-element to the rewritten one pointwise. -/
theorem strPass_forall (cfg : Cfg) :
    ∀ (els : List J) (S : TransState × Nat),
    (strPass cfg els S).2.2 = none →
    List.Forall₂ (strPassRel cfg) els (strPass cfg els S).1 := by
  intro els
  induction els with
  | nil =>
    intro S _
    simp only [strPass]
    exact List.Forall₂.nil
  | cons el els ih =>
    intro S hnone
    cases el with
    | str s =>
      by_cases hlen : 2 < s.length
      · cases herr : (TranslatorService.translate cfg S.2 S.1 s).2.err with
        | some e =>
          exfalso
          simp only [strPass, if_pos hlen, herr] at hnone
          exact Option.noConfusion hnone
        | none =>
          have hs : strPass cfg (J.str s :: els) S =
              (J.str (TranslatorService.translate cfg S.2 S.1 s).2.result ::
                 (strPass cfg els ((TranslatorService.translate cfg S.2 S.1 s).1, S.2 + 1)).1,
               (strPass cfg els ((TranslatorService.translate cfg S.2 S.1 s).1, S.2 + 1)).2.1,
               (strPass cfg els ((TranslatorService.translate cfg S.2 S.1 s).1, S.2 + 1)).2.2) := by
            simp only [strPass, if_pos hlen, herr]
          rw [hs] at hnone ⊢
          refine List.Forall₂.cons ?_ (ih _ hnone)
          refine ⟨fun s' hs' hl => ?_, fun s' hs' _ => ?_, fun hns => ?_⟩
          · cases hs'; omega
          · cases hs'
            exact ⟨S.1, S.2, herr, rfl⟩
          · exact absurd rfl (hns s)
      · have hs : strPass cfg (J.str s :: els) S =
            (J.str s :: (strPass cfg els S).1,
             (strPass cfg els S).2.1, (strPass cfg els S).2.2) := by
          simp only [strPass, if_neg hlen]
        rw [hs] at hnone ⊢
        refine List.Forall₂.cons ?_ (ih _ hnone)
        exact ⟨fun s' hs' _ => rfl, fun s' hs' hl => by cases hs'; omega,
          fun hns => rfl⟩
    | num n =>
      have hs : strPass cfg (J.num n :: els) S =
          (J.num n :: (strPass cfg els S).1,
           (strPass cfg els S).2.1, (strPass cfg els S).2.2) := by
        simp only [strPass]
      rw [hs] at hnone ⊢
      refine List.Forall₂.cons ?_ (ih _ hnone)
      exact ⟨fun s' hs' _ => J.noConfusion hs', fun s' hs' _ => absurd hs' (fun h => J.noConfusion h),
        fun _ => rfl⟩
    | list l =>
      have hs : strPass cfg (J.list l :: els) S =
          (J.list l :: (strPass cfg els S).1,
           (strPass cfg els S).2.1, (strPass cfg els S).2.2) := by
        simp only [strPass]
      rw [hs] at hnone ⊢
      refine List.Forall₂.cons ?_ (ih _ hnone)
      exact ⟨fun s' hs' _ => J.noConfusion hs', fun s' hs' _ => absurd hs' (fun h => J.noConfusion h),
        fun _ => rfl⟩
    | obj fs =>
      have hs : strPass cfg (J.obj fs :: els) S =
          (J.obj fs :: (strPass cfg els S).1,
           (strPass cfg els S).2.1, (strPass cfg els S).2.2) := by
        simp only [strPass]
      rw [hs] at hnone ⊢
      refine List.Forall₂.cons ?_ (ih _ hnone)
      exact ⟨fun s' hs' _ => J.noConfusion hs', fun s' hs' _ => absurd hs' (fun h => J.noConfusion h),
        fun _ => rfl⟩

/-- Composing the string pass with the generic recursion that follows it:
when neither raises, every original sub-element is related to the final
one by `nestedRel`. -/
theorem entriesAfter_compose (cfg : Cfg) :
    ∀ (os ms : List J) (S : TransState × Nat),
    List.Forall₂ (strPassRel cfg) os ms →
    (entriesAfter cfg os ms S).2.2 = none →
    List.Forall₂ (nestedRel cfg) os (entriesAfter cfg os ms S).1 := by
  intro os ms S hrel
  induction hrel generalizing S with
  | nil =>
    intro _
    simp only [entriesAfter]
    exact List.Forall₂.nil
  | cons hom htail ih =>
    rename_i o m os' ms'
    intro hnone
    cases o with
    | str s =>
      have hs : entriesAfter cfg (J.str s :: os') (m :: ms') S =
          (m :: (entriesAfter cfg os' ms' S).1,
           (entriesAfter cfg os' ms' S).2.1, (entriesAfter cfg os' ms' S).2.2) := by
        simp only [entriesAfter]
      rw [hs] at hnone ⊢
      refine List.Forall₂.cons ?_ (ih S hnone)
      obtain ⟨h1, h2, _⟩ := hom
      exact ⟨fun s' hs' hl => h1 s' hs' hl, fun s' hs' hl => h2 s' hs' hl,
        fun hns => absurd rfl (hns s)⟩
    | num n =>
      obtain ⟨_, _, h3⟩ := hom
      have hm : m = J.num n := h3 (fun s h => J.noConfusion h)
      cases herr : (translate_data cfg (J.num n) S).2.2 with
      | some e =>
        exfalso
        rw [hm] at hnone
        simp only [entriesAfter, herr] at hnone
        exact Option.noConfusion hnone
      | none =>
        rw [hm] at hnone ⊢
        have hs : entriesAfter cfg (J.num n :: os') (J.num n :: ms') S =
            ((translate_data cfg (J.num n) S).1 ::
               (entriesAfter cfg os' ms' (translate_data cfg (J.num n) S).2.1).1,
             (entriesAfter cfg os' ms' (translate_data cfg (J.num n) S).2.1).2.1,
             (entriesAfter cfg os' ms' (translate_data cfg (J.num n) S).2.1).2.2) := by
          simp only [entriesAfter, herr]
        rw [hs] at hnone ⊢
        refine List.Forall₂.cons ?_ (ih _ hnone)
        exact ⟨fun s' hs' _ => J.noConfusion hs', fun s' hs' _ => absurd hs' (fun h => J.noConfusion h),
          fun _ => ⟨S.1, S.2, herr, rfl⟩⟩
    | list l =>
      obtain ⟨_, _, h3⟩ := hom
      have hm : m = J.list l := h3 (fun s h => J.noConfusion h)
      cases herr : (translate_data cfg (J.list l) S).2.2 with
      | some e =>
        exfalso
        rw [hm] at hnone
        simp only [entriesAfter, herr] at hnone
        exact Option.noConfusion hnone
      | none =>
        rw [hm] at hnone ⊢
        have hs : entriesAfter cfg (J.list l :: os') (J.list l :: ms') S =
            ((translate_data cfg (J.list l) S).1 ::
               (entriesAfter cfg os' ms' (translate_data cfg (J.list l) S).2.1).1,
             (entriesAfter cfg os' ms' (translate_data cfg (J.list l) S).2.1).2.1,
             (entriesAfter cfg os' ms' (translate_data cfg (J.list l) S).2.1).2.2) := by
          simp only [entriesAfter, herr]
        rw [hs] at hnone ⊢
        refine List.Forall₂.cons ?_ (ih _ hnone)
        exact ⟨fun s' hs' _ => J.noConfusion hs', fun s' hs' _ => absurd hs' (fun h => J.noConfusion h),
          fun _ => ⟨S.1, S.2, herr, rfl⟩⟩
    | obj fs =>
      obtain ⟨_, _, h3⟩ := hom
      have hm : m = J.obj fs := h3 (fun s h => J.noConfusion h)
      cases herr : (translate_data cfg (J.obj fs) S).2.2 with
      | some e =>
        exfalso
        rw [hm] at hnone
        simp only [entriesAfter, herr] at hnone
        exact Option.noConfusion hnone
      | none =>
        rw [hm] at hnone ⊢
        have hs : entriesAfter cfg (J.obj fs :: os') (J.obj fs :: ms') S =
            ((translate_data cfg (J.obj fs) S).1 ::
               (entriesAfter cfg os' ms' (translate_data cfg (J.obj fs) S).2.1).1,
             (entriesAfter cfg os' ms' (translate_data cfg (J.obj fs) S).2.1).2.1,
             (entriesAfter cfg os' ms' (translate_data cfg (J.obj fs) S).2.1).2.2) := by
          simp only [entriesAfter, herr]
        rw [hs] at hnone ⊢
        refine List.Forall₂.cons ?_ (ih _ hnone)
        exact ⟨fun s' hs' _ => J.noConfusion hs', fun s' hs' _ => absurd hs' (fun h => J.noConfusion h),
          fun _ => ⟨S.1, S.2, herr, rfl⟩⟩

/-- C7, counterexample to the claim as stated: inside the `entries` field,
a nested list containing a mapping has that mapping — a non-string
sub-element — rewritten by the generic recursion that follows the in-place
string pass; the claim asserts all non-string sub-elements are left
untouched. -/
theorem c7_counterexample :
    translate_data cfgOk doc7 (st0, 0) =
      (J.obj [(entriesKey, J.list [J.list [J.obj [(entryKey, J.str ciaoText)]]])],
       ({ cacheData := [(helloText, ciaoText)], cacheDirty := true,
          charCount := 11, cachedCharCount := 0 }, 1), none) ∧
    ciaoText ≠ helloText :=
  ⟨rfl, by decide⟩

/-- C7 (amended): when a named sequence field's element is itself a list
and the walk raises nothing, every string sub-element longer than 2
characters is replaced by a `translate` result, every string sub-element
of length at most 2 is kept verbatim, and every non-string sub-element is
replaced by the output of the generic walker on it (so it is not in
general left untouched). -/
theorem c7_nested_list (cfg : Cfg) (els es : List J) (S : TransState × Nat)
    (rs : List J) (S' : TransState × Nat)
    (heq : entriesLoop cfg (J.list els :: es) S = (rs, S', none)) :
    ∃ els'' tail, rs = J.list els'' :: tail ∧
      List.Forall₂ (nestedRel cfg) els els'' := by
  cases herr1 : (strPass cfg els S).2.2 with
  | some e =>
    exfalso
    simp only [entriesLoop, herr1] at heq
    have := congrArg (fun pr => pr.2.2) heq
    simp at this
  | none =>
    cases herr2 : (entriesAfter cfg els (strPass cfg els S).1 (strPass cfg els S).2.1).2.2 with
    | some e =>
      exfalso
      simp only [entriesLoop, herr1, herr2] at heq
      have := congrArg (fun pr => pr.2.2) heq
      simp at this
    | none =>
      have hs : entriesLoop cfg (J.list els :: es) S =
          (J.list (entriesAfter cfg els (strPass cfg els S).1 (strPass cfg els S).2.1).1 ::
             (entriesLoop cfg es
               (entriesAfter cfg els (strPass cfg els S).1 (strPass cfg els S).2.1).2.1).1,
           (entriesLoop cfg es
             (entriesAfter cfg els (strPass cfg els S).1 (strPass cfg els S).2.1).2.1).2.1,
           (entriesLoop cfg es
             (entriesAfter cfg els (strPass cfg els S).1 (strPass cfg els S).2.1).2.1).2.2) := by
        simp only [entriesLoop, herr1, herr2]
      rw [hs] at heq
      refine ⟨(entriesAfter cfg els (strPass cfg els S).1 (strPass cfg els S).2.1).1,
        (entriesLoop cfg es
          (entriesAfter cfg els (strPass cfg els S).1 (strPass cfg els S).2.1).2.1).1, ?_, ?_⟩
      · have := congrArg Prod.fst heq
        simpa using this.symm
      · exact entriesAfter_compose cfg els _ _ (strPass_forall cfg els S herr1) herr2

/-- Witness for C7 (amended): a nested list holding one mapping yields the
generic-recursion output for that mapping. -/
theorem c7_witness :
    ∃ els'' tail,
      [J.list [J.obj [(entryKey, J.str ciaoText)]]] = J.list els'' :: tail ∧
      List.Forall₂ (nestedRel cfgOk) [J.obj [(entryKey, J.str helloText)]] els'' :=
  c7_nested_list cfgOk [J.obj [(entryKey, J.str helloText)]] [] (st0, 0)
    [J.list [J.obj [(entryKey, J.str ciaoText)]]]
    (({ cacheData := [(helloText, ciaoText)], cacheDirty := true,
        charCount := 11, cachedCharCount := 0 }, 1)) rfl

/-! ### C3: character and marker facts -/

theorem digitChar_mem (d : Nat) (hd : d < 10) : digitChar d ∈ digitList := by
  interval_cases d <;> decide

theorem natDigitsAux_mem :
    ∀ (fuel n : Nat) (c : Char), c ∈ natDigitsAux fuel n → c ∈ digitList := by
  intro fuel
  induction fuel with
  | zero => intro n c hc; simp [natDigitsAux] at hc
  | succ f ih =>
    intro n c hc
    by_cases h10 : n < 10
    · simp only [natDigitsAux, if_pos h10, List.mem_singleton] at hc
      rw [hc]
      exact digitChar_mem n h10
    · simp only [natDigitsAux, if_neg h10] at hc
      rcases List.mem_append.mp hc with h | h
      · exact ih _ _ h
      · rw [List.mem_singleton.mp h]
        exact digitChar_mem _ (Nat.mod_lt _ (by norm_num))

theorem natDigits_mem (n : Nat) (c : Char) (hc : c ∈ natDigits n) : c ∈ digitList :=
  natDigitsAux_mem _ _ _ hc

theorem lbrace_not_mem_marker (i : Nat) : '{' ∉ marker i := by
  intro h
  have h1 : '{' ∈ ('(' :: ('%' :: (natDigits i ++ ['%', ')']))) := h
  rcases List.mem_cons.mp h1 with h2 | h2
  · exact absurd h2 (by decide)
  rcases List.mem_cons.mp h2 with h3 | h3
  · exact absurd h3 (by decide)
  rcases List.mem_append.mp h3 with h4 | h4
  · exact absurd (natDigits_mem i '{' h4) (by decide)
  rcases List.mem_cons.mp h4 with h5 | h5
  · exact absurd h5 (by decide)
  exact absurd (List.mem_singleton.mp h5) (by decide)

theorem lparen_not_mem_marker_tail (i : Nat) :
    '(' ∉ ('%' :: (natDigits i ++ ['%', ')'])) := by
  intro h
  rcases List.mem_cons.mp h with h2 | h2
  · exact absurd h2 (by decide)
  rcases List.mem_append.mp h2 with h3 | h3
  · exact absurd (natDigits_mem i '(' h3) (by decide)
  rcases List.mem_cons.mp h3 with h4 | h4
  · exact absurd h4 (by decide)
  exact absurd (List.mem_singleton.mp h4) (by decide)

theorem drop_head_mem (tl : List Char) :
    ∀ j, j < tl.length → ∃ c cs, tl.drop j = c :: cs ∧ c ∈ tl := by
  induction tl with
  | nil => intro j hj; simp at hj
  | cons x tl ih =>
    intro j hj
    cases j with
    | zero => exact ⟨x, tl, rfl, List.mem_cons_self _ _⟩
    | succ j' =>
      obtain ⟨c, cs, h1, h2⟩ := ih j' (by simpa using hj)
      exact ⟨c, cs, by simpa using h1, List.mem_cons_of_mem _ h2⟩

theorem marker_no_border (i k : Nat) (h0 : 0 < k) (hk : k < (marker i).length) :
    ¬ (marker i).drop k <+: marker i := by
  intro hpre
  obtain ⟨k', rfl⟩ : ∃ k', k = k' + 1 := ⟨k - 1, by omega⟩
  have hm : marker i = '(' :: ('%' :: (natDigits i ++ ['%', ')'])) := rfl
  rw [hm] at hpre hk
  simp only [List.drop_succ_cons] at hpre
  have hk2 : k' < ('%' :: (natDigits i ++ ['%', ')'])).length := by
    simp only [List.length_cons] at hk ⊢
    omega
  obtain ⟨c, cs, hdrop, hcmem⟩ := drop_head_mem _ k' hk2
  rw [hdrop] at hpre
  have hc : c = '(' := (List.cons_prefix_cons.mp hpre).1
  rw [hc] at hcmem
  exact lparen_not_mem_marker_tail i hcmem

/-! ### C3: replace-first and prefix lemmas -/

theorem isPrefixOf_iff (l₁ l₂ : List Char) : l₁.isPrefixOf l₂ = true ↔ l₁ <+: l₂ :=
  List.isPrefixOf_iff_prefix

theorem prefix_cancel_left (Y : List Char) :
    ∀ u v : List Char, Y ++ u <+: Y ++ v → u <+: v := by
  induction Y with
  | nil => intro u v h; simpa using h
  | cons y Y ih =>
    intro u v h
    simp only [List.cons_append, List.cons_prefix_cons] at h
    exact ih u v h.2

theorem prefix_of_le_length (u Y Z : List Char) (h : u <+: Y ++ Z)
    (hl : u.length ≤ Y.length) : u <+: Y := by
  obtain ⟨r, hr⟩ := h
  have htake : u = (Y ++ Z).take u.length := by
    rw [← hr]
    simp
  rw [List.take_append_of_le_length hl] at htake
  rw [htake]
  have := List.take_prefix u.length Y
  exact this

theorem replaceFirst_here (s old new : List Char) (h : old <+: s) :
    replaceFirst s old new = new ++ s.drop old.length := by
  cases s with
  | nil =>
    have hold : old = [] := List.prefix_nil.mp h
    subst hold
    simp [replaceFirst]
  | cons c cs =>
    simp only [replaceFirst]
    rw [if_pos ((isPrefixOf_iff _ _).mpr h)]

theorem replaceFirst_cons_of_not (c : Char) (cs old new : List Char)
    (h : ¬ old <+: (c :: cs)) :
    replaceFirst (c :: cs) old new = c :: replaceFirst cs old new := by
  simp only [replaceFirst]
  rw [if_neg (fun hh => h ((isPrefixOf_iff _ _).mp hh))]

/-- Replacing the first occurrence of `old` in `A ++ old ++ C` rewrites the
visible occurrence, provided no occurrence of `old` starts inside `A`. -/
theorem replaceFirst_at (A old C new : List Char)
    (h : ∀ X Y, A = X ++ Y → Y ≠ [] → ¬ old <+: (Y ++ old ++ C)) :
    replaceFirst (A ++ old ++ C) old new = A ++ new ++ C := by
  induction A with
  | nil =>
    simp only [List.nil_append]
    rw [replaceFirst_here _ _ _ ( List.prefix_append old C)]
    rw [List.drop_left]
  | cons c A' ih =>
    have h0 : ¬ old <+: ((c :: A') ++ old ++ C) := h [] (c :: A') rfl (by simp)
    have hassoc : (c :: A') ++ old ++ C = c :: (A' ++ old ++ C) := by simp
    rw [hassoc] at h0
    rw [hassoc, replaceFirst_cons_of_not c _ old new h0]
    rw [ih ?_]
    · simp
    · intro X Y hXY hY
      exact h (c :: X) Y (by rw [hXY]; rfl) hY

/-! ### C3: clean strings -/

theorem clean_nil : Clean [] := by
  intro X b h
  exfalso
  cases X <;> simp at h

theorem clean_append (A B : List Char) (hA : Clean A) (hB : Clean B) :
    Clean (A ++ B) := by
  intro X b heq
  rcases List.append_eq_append_iff.mp heq with ⟨a', hX, hB'⟩ | ⟨c', hA', hbc⟩
  · exact hB a' b hB'
  · cases c' with
    | nil =>
      simp only [List.nil_append] at hbc
      refine hB [] b ?_
      rw [← hbc]
      rfl
    | cons e c'' =>
      rw [List.cons_append] at hbc
      injection hbc with h1 hb
      have he : e = '{' := h1.symm
      rw [he] at hA'
      obtain ⟨b₁, b₂, hc'', hb₁⟩ := hA X c'' hA'
      refine ⟨b₁, b₂ ++ B, ?_, hb₁⟩
      rw [hb, hc'']
      simp

theorem clean_marker (i : Nat) : Clean (marker i) := by
  intro X b heq
  exfalso
  apply lbrace_not_mem_marker i
  rw [heq]
  exact List.mem_append.mpr (Or.inr (List.mem_cons_self _ _))

/-- No brace-to-brace run without a newline fits inside the continuation
of a `{` occurring in a clean string. -/
theorem no_brace_occ (w : List Char) :
    ∀ (b₁ Z M : List Char), '\n' ∉ w → '}' ∉ b₁ →
    ¬ (w ++ '}' :: Z <+: b₁ ++ '\n' :: M) := by
  induction w with
  | nil =>
    intro b₁ Z M _ hb hpre
    cases b₁ with
    | nil =>
      simp only [List.nil_append] at hpre
      have := (List.cons_prefix_cons.mp hpre).1
      exact absurd this (by decide)
    | cons c b₁' =>
      simp only [List.nil_append, List.cons_append] at hpre
      have := (List.cons_prefix_cons.mp hpre).1
      rw [← this] at hb
      exact hb (List.mem_cons_self _ _)
  | cons d w' ih =>
    intro b₁ Z M hw hb hpre
    cases b₁ with
    | nil =>
      simp only [List.cons_append, List.nil_append] at hpre
      have := (List.cons_prefix_cons.mp hpre).1
      rw [this] at hw
      exact hw (List.mem_cons_self _ _)
    | cons c b₁' =>
      simp only [List.cons_append] at hpre
      obtain ⟨hdc, htail⟩ := List.cons_prefix_cons.mp hpre
      exact ih b₁' Z M (fun hmem => hw (List.mem_cons_of_mem _ hmem))
        (fun hmem => hb (List.mem_cons_of_mem _ hmem)) htail

/-- In a clean string no tag-shaped occurrence can start, whatever is
appended after it. -/
theorem clean_no_tag_start (A' C t : List Char) (hA : Clean A') (ht : TagStr t) :
    ∀ X Y, A' = X ++ Y → Y ≠ [] → ¬ t <+: (Y ++ t ++ C) := by
  intro X Y hsplit hY hpre
  obtain ⟨w, htw, hwb, hwn⟩ := ht
  cases Y with
  | nil => exact hY rfl
  | cons y Y' =>
    nth_rewrite 1 [htw] at hpre
    have hpre' : '{' :: (w ++ ['}']) <+: y :: (Y' ++ (t ++ C)) := by
      simpa [List.append_assoc] using hpre
    obtain ⟨hy, htail⟩ := List.cons_prefix_cons.mp hpre'
    obtain ⟨b₁, b₂, hb, hb1⟩ := hA X Y' (by rw [hsplit, ← hy])
    rw [hb] at htail
    have hfin : w ++ '}' :: [] <+: b₁ ++ '\n' :: (b₂ ++ (t ++ C)) := by
      simpa [List.append_assoc] using htail
    exact no_brace_occ w b₁ [] _ hwn hb1 hfin

/-! ### C3: the scanner's decomposition -/

theorem tagTail_some :
    ∀ (cs w r : List Char), tagTail cs = some (w, r) →
    cs = w ++ '}' :: r ∧ '}' ∉ w ∧ '\n' ∉ w := by
  intro cs
  induction cs with
  | nil => intro w r h; simp [tagTail] at h
  | cons c cs' ih =>
    intro w r h
    by_cases hc : c = '}'
    · simp only [tagTail, if_pos hc, Option.some.injEq, Prod.mk.injEq] at h
      obtain ⟨hw, hr⟩ := h
      refine ⟨?_, ?_, ?_⟩
      · rw [hc, ← hw, ← hr]
        rfl
      · rw [← hw]; simp
      · rw [← hw]; simp
    · by_cases hn : c = '\n'
      · simp [tagTail, if_neg hc, if_pos hn] at h
      · simp only [tagTail, if_neg hc, if_neg hn, Option.map_eq_some'] at h
        obtain ⟨⟨w', r'⟩, hsome, hmap⟩ := h
        simp only [Prod.mk.injEq] at hmap
        obtain ⟨hw, hr⟩ := hmap
        obtain ⟨hcs, hwb, hwn⟩ := ih w' r' hsome
        refine ⟨?_, ?_, ?_⟩
        · rw [← hw, ← hr, hcs]
          rfl
        · rw [← hw]
          intro hm
          rcases List.mem_cons.mp hm with hm | hm
          · exact hc hm.symm
          · exact hwb hm
        · rw [← hw]
          intro hm
          rcases List.mem_cons.mp hm with hm | hm
          · exact hn hm.symm
          · exact hwn hm

theorem tagTail_none : ∀ (L : List Char), tagTail L = none →
    ('}' ∉ L) ∨ ∃ b₁ b₂, L = b₁ ++ '\n' :: b₂ ∧ '}' ∉ b₁ := by
  intro L
  induction L with
  | nil => intro _; left; simp
  | cons c cs ih =>
    intro h
    by_cases hc : c = '}'
    · simp [tagTail, if_pos hc] at h
    · by_cases hn : c = '\n'
      · right
        refine ⟨[], cs, ?_, by simp⟩
        rw [hn]
        rfl
      · simp only [tagTail, if_neg hc, if_neg hn, Option.map_eq_none'] at h
        rcases ih h with h1 | ⟨b₁, b₂, heq, hb₁⟩
        · left
          intro hm
          rcases List.mem_cons.mp hm with hm | hm
          · exact hc hm.symm
          · exact h1 hm
        · right
          refine ⟨c :: b₁, b₂, ?_, ?_⟩
          · rw [heq]
            rfl
          · intro hm
            rcases List.mem_cons.mp hm with hm | hm
            · exact hc hm.symm
            · exact hb₁ hm

theorem findMatch_some :
    ∀ (s p t r : List Char), findMatch s = some (p, t, r) →
    s = p ++ t ++ r ∧ TagStr t ∧
      (∀ X b, p = X ++ '{' :: b → tagTail (b ++ t ++ r) = none) := by
  intro s
  induction s with
  | nil => intro p t r h; simp [findMatch] at h
  | cons c cs ih =>
    intro p t r h
    by_cases hc : c = '{'
    · cases htt : tagTail cs with
      | some pr =>
        obtain ⟨w, r₀⟩ := pr
        simp only [findMatch, if_pos hc, htt, Option.some.injEq, Prod.mk.injEq] at h
        obtain ⟨hp, ht, hr⟩ := h
        obtain ⟨hcs, hwb, hwn⟩ := tagTail_some cs w r₀ htt
        refine ⟨?_, ?_, ?_⟩
        · rw [← hp, ← ht, ← hr, hc, hcs]
          simp
        · exact ⟨w, ht.symm, hwb, hwn⟩
        · intro X b hXb
          rw [← hp] at hXb
          exfalso
          cases X <;> simp at hXb
      | none =>
        simp only [findMatch, if_pos hc, htt, Option.map_eq_some'] at h
        obtain ⟨⟨p', t', r'⟩, hsome, hmap⟩ := h
        simp only [Prod.mk.injEq] at hmap
        obtain ⟨hp, ht, hr⟩ := hmap
        obtain ⟨hcs, htag, hgap⟩ := ih p' t' r' hsome
        refine ⟨?_, ?_, ?_⟩
        · rw [← hp, ← ht, ← hr, hcs]
          simp
        · rw [← ht]; exact htag
        · intro X b hXb
          rw [← hp] at hXb
          cases X with
          | nil =>
            simp only [List.nil_append] at hXb
            injection hXb with h1 h2
            rw [← ht, ← hr, ← h2, ← hcs]
            exact htt
          | cons x X' =>
            rw [List.cons_append] at hXb
            injection hXb with h1 h2
            rw [← ht, ← hr]
            exact hgap X' b h2
    · simp only [findMatch, if_neg hc, Option.map_eq_some'] at h
      obtain ⟨⟨p', t', r'⟩, hsome, hmap⟩ := h
      simp only [Prod.mk.injEq] at hmap
      obtain ⟨hp, ht, hr⟩ := hmap
      obtain ⟨hcs, htag, hgap⟩ := ih p' t' r' hsome
      refine ⟨?_, ?_, ?_⟩
      · rw [← hp, ← ht, ← hr, hcs]
        simp
      · rw [← ht]; exact htag
      · intro X b hXb
        rw [← hp] at hXb
        cases X with
        | nil =>
          simp only [List.nil_append] at hXb
          injection hXb with h1 h2
          exact absurd h1 hc
        | cons x X' =>
          rw [List.cons_append] at hXb
          injection hXb with h1 h2
          rw [← ht, ← hr]
          exact hgap X' b h2

theorem findMatch_some_length (s p t r : List Char)
    (h : findMatch s = some (p, t, r)) : r.length < s.length := by
  obtain ⟨hdec, ⟨w, htw, _, _⟩, _⟩ := findMatch_some s p t r h
  rw [hdec, htw]
  simp [List.length_append]
  omega

theorem findMatch_gap_clean (s p t r : List Char)
    (h : findMatch s = some (p, t, r)) : Clean p := by
  obtain ⟨hdec, htag, hgap⟩ := findMatch_some s p t r h
  obtain ⟨w, htw, hwb, hwn⟩ := htag
  have hbrace : '}' ∈ t := by
    rw [htw]
    exact List.mem_cons_of_mem _ (List.mem_append.mpr (Or.inr (List.mem_singleton.mpr rfl)))
  have hnl : '\n' ∉ t := by
    rw [htw]
    intro hm
    rcases List.mem_cons.mp hm with hm | hm
    · exact absurd hm (by decide)
    · rcases List.mem_append.mp hm with hm | hm
      · exact hwn hm
      · exact absurd (List.mem_singleton.mp hm) (by decide)
  intro X b hXb
  have htt := hgap X b hXb
  rcases tagTail_none _ htt with hnb | ⟨b₁, b₂, heq, hb₁⟩
  · exfalso
    apply hnb
    exact List.mem_append.mpr (Or.inl (List.mem_append.mpr (Or.inr hbrace)))
  · have heq' : b ++ (t ++ r) = b₁ ++ '\n' :: b₂ := by
      simpa [List.append_assoc] using heq
    rcases List.append_eq_append_iff.mp heq' with ⟨a', hb₁', hta⟩ | ⟨c', hb', hnc⟩
    · exfalso
      have ha' : '}' ∉ a' := fun hm => hb₁ (by rw [hb₁']; exact List.mem_append.mpr (Or.inr hm))
      rcases List.append_eq_append_iff.mp hta with ⟨x, hax, hrx⟩ | ⟨y, hty, hny⟩
      · apply ha'
        rw [hax]
        exact List.mem_append.mpr (Or.inl hbrace)
      · cases y with
        | nil =>
          apply ha'
          have : t = a' := by simpa using hty
          rw [← this]
          exact hbrace
        | cons y₀ y' =>
          rw [List.cons_append] at hny
          injection hny with h1 h2
          apply hnl
          rw [hty, ← h1]
          exact List.mem_append.mpr (Or.inr (List.mem_cons_self _ _))
    · cases c' with
      | nil =>
        exfalso
        simp only [List.nil_append] at hnc
        rw [htw, List.cons_append] at hnc
        injection hnc with h1 h2
        exact absurd h1 (by decide)
      | cons e c'' =>
        rw [List.cons_append] at hnc
        injection hnc with h1 h2
        refine ⟨b₁, c'', ?_, hb₁⟩
        rw [hb', ← h1]

theorem allMatchesF_spec :
    ∀ (fuel : Nat) (s : List Char), s.length < fuel →
    s = flattenOrig (allMatchesF fuel s).1 (allMatchesF fuel s).2 ∧
      ∀ pr ∈ (allMatchesF fuel s).1, Clean pr.1 ∧ TagStr pr.2 := by
  intro fuel
  induction fuel with
  | zero => intro s hs; exact absurd hs (by omega)
  | succ f ih =>
    intro s hs
    cases hfm : findMatch s with
    | none =>
      simp only [allMatchesF, hfm]
      refine ⟨rfl, ?_⟩
      intro pr hpr
      exact absurd hpr (List.not_mem_nil pr)
    | some ptr =>
      obtain ⟨p, t, r⟩ := ptr
      have hlen := findMatch_some_length s p t r hfm
      have hrf : r.length < f := by omega
      obtain ⟨hdec, htag, _⟩ := findMatch_some s p t r hfm
      have hclean := findMatch_gap_clean s p t r hfm
      obtain ⟨ihdec, ihmem⟩ := ih r hrf
      simp only [allMatchesF, hfm]
      constructor
      · rw [hdec]
        simp only [flattenOrig]
        rw [← ihdec]
      · intro pr hpr
        rcases List.mem_cons.mp hpr with hh | hh
        · rw [hh]; exact ⟨hclean, htag⟩
        · exact ihmem pr hh

/-! ### C3: the two folds over the decomposition -/

/-- The `links2tags` loop turns the decomposed text into its marked form:
each matched tag's first remaining occurrence is exactly the one at its
match position, because gaps and markers are clean. -/
theorem extractFold_flatten :
    ∀ (ps : List (List Char × List Char)) (gl A : List Char) (s : Nat),
    Clean A → (∀ pr ∈ ps, Clean pr.1 ∧ TagStr pr.2) →
    extractFold (A ++ flattenOrig ps gl) (ps.map Prod.snd) s =
      A ++ flattenMarked ps gl s := by
  intro ps
  induction ps with
  | nil => intro gl A s _ _; rfl
  | cons pr ps' ih =>
    intro gl A s hA hps
    obtain ⟨g, t⟩ := pr
    obtain ⟨hg, ht⟩ := hps (g, t) (List.mem_cons_self _ _)
    have hps' : ∀ q ∈ ps', Clean q.1 ∧ TagStr q.2 :=
      fun q hq => hps q (List.mem_cons_of_mem _ hq)
    have hAg : Clean (A ++ g) := clean_append A g hA hg
    have hrw : A ++ flattenOrig ((g, t) :: ps') gl =
        (A ++ g) ++ t ++ flattenOrig ps' gl := by
      simp [flattenOrig, List.append_assoc]
    have hrep : replaceFirst ((A ++ g) ++ t ++ flattenOrig ps' gl) t (marker s) =
        (A ++ g) ++ marker s ++ flattenOrig ps' gl :=
      replaceFirst_at (A ++ g) t (flattenOrig ps' gl) (marker s)
        (clean_no_tag_start (A ++ g) (flattenOrig ps' gl) t hAg ht)
    simp only [List.map_cons, extractFold]
    rw [hrw, hrep]
    have hA'' : Clean ((A ++ g) ++ marker s) :=
      clean_append _ _ hAg (clean_marker s)
    have hih := ih gl ((A ++ g) ++ marker s) (s + 1) hA'' hps'
    rw [hih]
    simp [flattenMarked, List.append_assoc]

/-- The `tags2links` loop restores the original text from the marked form,
provided no marker in play occurs literally in the original text: each
marker's first occurrence is the one created at its match position. -/
theorem restoreFold_flatten :
    ∀ (ps : List (List Char × List Char)) (gl A : List Char) (s : Nat)
      (orig : List Char),
    orig = A ++ flattenOrig ps gl →
    (∀ k, s ≤ k → k < s + ps.length → ¬ marker k <:+: orig) →
    restoreFold (A ++ flattenMarked ps gl s) (ps.map Prod.snd) s = orig := by
  intro ps
  induction ps with
  | nil =>
    intro gl A s orig horig _
    rw [horig]
    rfl
  | cons pr ps' ih =>
    intro gl A s orig horig hmk
    obtain ⟨g, t⟩ := pr
    have hrw : A ++ flattenMarked ((g, t) :: ps') gl s =
        (A ++ g) ++ marker s ++ flattenMarked ps' gl (s + 1) := by
      simp [flattenMarked, List.append_assoc]
    have horig' : orig = ((A ++ g) ++ t) ++ flattenOrig ps' gl := by
      rw [horig]; simp [flattenOrig, List.append_assoc]
    have hnoearly : ∀ X Y, A ++ g = X ++ Y → Y ≠ [] →
        ¬ marker s <+: (Y ++ marker s ++ flattenMarked ps' gl (s + 1)) := by
      intro X Y hsplit hY hpre
      by_cases hlen : (marker s).length ≤ Y.length
      · have h1 : marker s <+: Y :=
          prefix_of_le_length (marker s) Y
            (marker s ++ flattenMarked ps' gl (s + 1))
            (by simpa [List.append_assoc] using hpre) hlen
        obtain ⟨Yr, hYr⟩ := h1
        apply hmk s (le_refl s) (by simp only [List.length_cons]; omega)
        refine ⟨X, (Yr ++ t) ++ flattenOrig ps' gl, ?_⟩
        rw [horig', hsplit, ← hYr]
        simp [List.append_assoc]
      · push_neg at hlen
        obtain ⟨R, hR⟩ := id hpre
        have hYL : Y <+: marker s ++ R := by
          rw [hR, List.append_assoc]
          exact List.prefix_append _ _
        have hY1 : Y <+: marker s :=
          prefix_of_le_length Y (marker s) R hYL (Nat.le_of_lt hlen)
        obtain ⟨D, hD⟩ := hY1
        have hD2 : D <+: marker s ++ flattenMarked ps' gl (s + 1) := by
          apply prefix_cancel_left Y
          rw [hD]
          simpa [List.append_assoc] using hpre
        have hDlen : D.length ≤ (marker s).length := by
          have := congrArg List.length hD
          simp at this
          omega
        have hD3 : D <+: marker s :=
          prefix_of_le_length D (marker s) (flattenMarked ps' gl (s + 1)) hD2 hDlen
        have hDdrop : D = (marker s).drop Y.length := by
          rw [← hD, List.drop_left]
        have hY0 : 0 < Y.length := by
          cases Y with
          | nil => exact absurd rfl hY
          | cons a l => simp
        exact marker_no_border s Y.length hY0 hlen (by rw [← hDdrop]; exact hD3)
    have hrep : replaceFirst ((A ++ g) ++ marker s ++ flattenMarked ps' gl (s + 1))
        (marker s) t = (A ++ g) ++ t ++ flattenMarked ps' gl (s + 1) :=
      replaceFirst_at (A ++ g) (marker s) _ t hnoearly
    simp only [List.map_cons, restoreFold]
    rw [hrw, hrep]
    have hmk' : ∀ k, s + 1 ≤ k → k < (s + 1) + ps'.length → ¬ marker k <:+: orig := by
      intro k h1 h2
      exact hmk k (by omega) (by simp only [List.length_cons]; omega)
    exact ih gl ((A ++ g) ++ t) (s + 1) orig horig' hmk'

/-! ### C3: the round-trip claim (corrected) -/

/-- C3, counterexample to the claim as stated: the text `(%0%){a}` contains
one non-overlapping tag-pattern substring, yet extracting and restoring
with the identity in between yields `{a}(%0%)` — the literal marker `(%0%)`
already present in the source is replaced first. -/
theorem c3_counterexample :
    tags2links (links2tags rtBad).1 (links2tags rtBad).2 ≠ rtBad ∧
    tags2links (links2tags rtBad).1 (links2tags rtBad).2 =
      ['{', 'a', '}', '(', '%', '0', '%', ')'] := by
  constructor
  · decide
  · decide

/-- C3 (amended): for every text containing zero or more non-overlapping
tag-pattern substrings and no literal occurrence of any positional marker
`(%k%)` used by the extraction, restoring after extraction is the
identity: `tags2links (links2tags text) = text`. -/
theorem c3_tag_round_trip (text : List Char)
    (h : ∀ k, k < (links2tags text).2.length → ¬ marker k <:+: text) :
    tags2links (links2tags text).1 (links2tags text).2 = text := by
  obtain ⟨hdec, hmem⟩ := allMatchesF_spec (text.length + 1) text (by omega)
  have hlinks0 : (links2tags text).1 =
      extractFold text ((allMatchesF (text.length + 1) text).1.map Prod.snd) 0 := rfl
  have hlinks1 : (links2tags text).2 =
      (allMatchesF (text.length + 1) text).1.map Prod.snd := rfl
  rw [hlinks0, hlinks1]
  have hE := extractFold_flatten (allMatchesF (text.length + 1) text).1
    (allMatchesF (text.length + 1) text).2 [] 0 clean_nil (fun pr hpr => hmem pr hpr)
  rw [List.nil_append, List.nil_append] at hE
  rw [← hdec] at hE
  rw [hE]
  have hS := restoreFold_flatten (allMatchesF (text.length + 1) text).1
    (allMatchesF (text.length + 1) text).2 [] 0 text
    (by rw [List.nil_append]; exact hdec) ?_
  · rw [List.nil_append] at hS
    exact hS
  · intro k hk1 hk2
    apply h k
    rw [hlinks1]
    simpa using hk2

/-- Witness for C3 (amended): a text with one tag and no literal marker
survives the round trip. -/
theorem c3_witness :
    (∀ k, k < (links2tags rtGood).2.length → ¬ marker k <:+: rtGood) ∧
    tags2links (links2tags rtGood).1 (links2tags rtGood).2 = rtGood :=
  ⟨by decide, c3_tag_round_trip rtGood (by decide)⟩
